import Mathlib

/-
Verification of the riphttp scanning engine.

This file gives a shallow embedding, in Lean 4, of the core of the riphttp
mass HTTP request-smuggling scanner:

* `src/scanner/checkpoint.rs` — the checkpoint store (`Checkpoint`,
  `Checkpoint::to_string`, `Checkpoint::from_str`);
* `src/scanner/executor.rs`   — the bounded-concurrency executor
  (`execute`), modelled as a small-step state machine whose nondeterministic
  completion order is driven by an explicit schedule;
* `src/scanner/scanner.rs`    — the scanner facade (`TargetScanner`,
  `ProgressTask::execute`);
* `src/scanner/recorder.rs`   — the durable recorder (`ScanRecorder`:
  `commit_ready`, `handle_record`, `finish`), modelled as a deterministic
  state machine over its input message stream, with an explicit event trace
  recording output writes and checkpoint-file writes;
* `src/modules/trailmerge/mod.rs` — the TrailMerge probe
  (`interpret_status`, `scan_protocol`, `execute`), with network responses
  supplied as explicit oracle inputs;
* `src/modules/trailsmug/mod.rs`  — the TrailSmug probe (`execute`),
  likewise oracle-driven.

Rust string primitives used by the checkpoint parser (`str::lines`,
`str::split_once('=')`, `str::trim`, `usize` parsing and decimal
formatting) are re-implemented here at the character-list level with
structural recursion so that every definition evaluates inside the kernel.
File and network I/O is modelled as pure state: the output file is the
string of bytes written to it, the checkpoint file is an `Option
Checkpoint`, and every HTTP exchange is an oracle argument giving the
response (or error) the engine would have produced.
-/

namespace RipHttp

/-! ## Character-level string utilities (models of Rust `str` operations) -/

/-- Model of Rust `str::split` on a single separator character, at the level
of character lists: `splitOnChar sep cs` is the list of (possibly empty)
chunks of `cs` delimited by `sep`.  Always returns at least one chunk. -/
def splitOnChar (sep : Char) : List Char → List (List Char)
  | [] => [[]]
  | c :: cs =>
    if c = sep then [] :: splitOnChar sep cs
    else
      match splitOnChar sep cs with
      | [] => [[c]]
      | h :: t => (c :: h) :: t

/-- Drop a single trailing carriage return, as Rust `str::lines` does on
each line. -/
def stripCR (cs : List Char) : List Char :=
  if cs.getLast? = some '\r' then cs.dropLast else cs

/-- Model of Rust `str::lines`: split on `'\n'`, drop the trailing empty
chunk produced by a final newline, and strip one trailing `'\r'` from each
line. -/
def rustLines (s : String) : List (List Char) :=
  let parts := splitOnChar '\n' s.data
  let parts := if parts.getLast? = some [] then parts.dropLast else parts
  parts.map stripCR

/-- Model of Rust `str::split_once('=')`: the text before the first `'='`
and the text after it, or `none` when there is no `'='`. -/
def splitOnceEq : List Char → Option (List Char × List Char)
  | [] => none
  | c :: cs =>
    if c = '=' then some ([], cs)
    else (splitOnceEq cs).map (fun p => (c :: p.1, p.2))

/-- Model of Rust `str::trim` (the scanner only ever feeds it ASCII, for
which Lean's `Char.isWhitespace` agrees with Rust's
`char::is_whitespace`). -/
def trimChars (cs : List Char) : List Char :=
  ((cs.dropWhile Char.isWhitespace).reverse.dropWhile Char.isWhitespace).reverse

/-- String-level wrapper around `trimChars`; model of Rust `str::trim`. -/
def strTrim (s : String) : String :=
  String.mk (trimChars s.data)

/-- Model of Rust `str.trim().is_empty()`, the recorder's test for an empty
finding. -/
def trimIsEmpty (s : String) : Bool :=
  trimChars s.data = ([] : List Char)

/-! ## Decimal digits (model of Rust `usize` formatting and parsing) -/

/-- The decimal digit character for `n < 10`. -/
def digitChar : Nat → Char
  | 0 => '0' | 1 => '1' | 2 => '2' | 3 => '3' | 4 => '4'
  | 5 => '5' | 6 => '6' | 7 => '7' | 8 => '8' | _ => '9'

/-- Is this character an ASCII decimal digit? -/
def isDigitChar (c : Char) : Bool :=
  48 ≤ c.toNat && c.toNat ≤ 57

/-- Fuel-driven most-significant-first decimal rendering (the fuel makes
the recursion structural, so that the definition computes in the kernel). -/
def natToDecimalAux : Nat → Nat → List Char
  | 0, _ => []
  | fuel + 1, n =>
    if n < 10 then [digitChar n]
    else natToDecimalAux fuel (n / 10) ++ [digitChar (n % 10)]

/-- Decimal rendering of a natural number; model of Rust's `Display` for
`usize` as used by `format!("next_index={}", …)`. -/
def natToDecimal (n : Nat) : List Char :=
  natToDecimalAux (n + 1) n

/-- Numeric value of a digit string (most significant first). -/
def digitsVal (cs : List Char) : Nat :=
  cs.foldl (fun a c => a * 10 + (c.toNat - 48)) 0

/-- Model of Rust `str::parse::<usize>()` restricted to plain digit
strings (the only discrepancy is that Rust also accepts a leading `'+'`,
which never appears in checkpoint files the scanner writes). -/
def parseNat (cs : List Char) : Option Nat :=
  if cs ≠ [] ∧ cs.all isDigitChar then some (digitsVal cs) else none

/-! ## Checkpoint store — `src/scanner/checkpoint.rs` -/

/-- The checkpoint record (`Checkpoint` in `checkpoint.rs`): the exclusive
upper bound of completed absolute indices together with the identifying
paths and probe mode. -/
structure Checkpoint where
  next_index : Nat
  targets_path : String
  output_path : String
  mode : String
deriving DecidableEq, Repr

namespace Checkpoint

/-- Model of `Checkpoint::to_string`:
`format!("next_index={}\ntargets={}\noutput={}\nmode={}\n", …)`. -/
def to_string (c : Checkpoint) : String :=
  "next_index=" ++ String.mk (natToDecimal c.next_index) ++ "\n" ++
  "targets=" ++ c.targets_path ++ "\n" ++
  "output=" ++ c.output_path ++ "\n" ++
  "mode=" ++ c.mode ++ "\n"

/-- The key/value pairs collected by `Checkpoint::from_str`'s loop: for
each line with an `'='`, the trimmed key is bound to the trimmed value.
The Rust code inserts into a `HashMap` (later lines overwrite earlier
ones); we model that by prepending, so that `List.lookup` finds the most
recent binding first. -/
def kvs (data : String) : List (String × String) :=
  (rustLines data).foldl
    (fun m line =>
      match splitOnceEq line with
      | some (k, v) => (String.mk (trimChars k), String.mk (trimChars v)) :: m
      | none => m)
    []

/-- Model of `Checkpoint::from_str`: parse the `key=value` lines and
require all four keys, with `next_index` a decimal number. -/
def from_str (data : String) : Option Checkpoint :=
  let values := kvs data
  match List.lookup "next_index" values, List.lookup "targets" values,
        List.lookup "output" values, List.lookup "mode" values with
  | some nx, some tp, some op, some md =>
    match parseNat nx.data with
    | some n => some ⟨n, tp, op, md⟩
    | none => none
  | _, _, _, _ => none

end Checkpoint

/-! ## Lemmas about the string utilities -/

theorem splitOnChar_ne_nil (sep : Char) (cs : List Char) : splitOnChar sep cs ≠ [] := by
  induction cs with
  | nil => simp [splitOnChar]
  | cons c cs ih =>
    by_cases h : c = sep
    · simp [splitOnChar, h]
    · simp only [splitOnChar, if_neg h]
      cases hs : splitOnChar sep cs <;> simp

theorem splitOnChar_cons_sep (sep : Char) (cs : List Char) :
    splitOnChar sep (sep :: cs) = [] :: splitOnChar sep cs := by
  simp [splitOnChar]

theorem splitOnChar_append {sep : Char} {xs : List Char} (h : sep ∉ xs) {ys h0 t0}
    (hys : splitOnChar sep ys = h0 :: t0) :
    splitOnChar sep (xs ++ ys) = (xs ++ h0) :: t0 := by
  induction xs with
  | nil => simpa using hys
  | cons c xs ih =>
    have hc : ¬ c = sep := fun e => h (by simp [e])
    have hxs : sep ∉ xs := fun hm => h (List.mem_cons_of_mem _ hm)
    simp only [List.cons_append, splitOnChar, if_neg hc, List.append_eq]
    rw [ih hxs]

theorem dropWhile_eq_self_of_head {p : Char → Bool} {cs : List Char}
    (h : ∀ ch, cs.head? = some ch → p ch = false) : cs.dropWhile p = cs := by
  cases cs with
  | nil => rfl
  | cons c cs => simp [List.dropWhile_cons, h c rfl]

theorem trimChars_eq_self {cs : List Char}
    (hhead : ∀ ch, cs.head? = some ch → ch.isWhitespace = false)
    (hlast : ∀ ch, cs.getLast? = some ch → ch.isWhitespace = false) :
    trimChars cs = cs := by
  unfold trimChars
  rw [dropWhile_eq_self_of_head hhead,
      dropWhile_eq_self_of_head (fun ch hch => hlast ch (by rwa [List.head?_reverse] at hch)),
      List.reverse_reverse]

theorem mem_of_getLast?_eq {α : Type _} {l : List α} {x : α} (h : l.getLast? = some x) :
    x ∈ l := by
  have hx : x ∈ l.getLast? := by rw [Option.mem_def, h]
  obtain ⟨hne, hxe⟩ := List.mem_getLast?_eq_getLast hx
  rw [hxe]
  exact List.getLast_mem hne

theorem mem_of_head?_eq {α : Type _} {l : List α} {x : α} (h : l.head? = some x) :
    x ∈ l := by
  cases l with
  | nil => simp at h
  | cons a l =>
    simp at h
    simp [h]

theorem digitChar_spec : ∀ n, n < 10 →
    isDigitChar (digitChar n) = true ∧ (digitChar n).toNat - 48 = n := by decide

theorem isDigitChar_not_ws {c : Char} (h : isDigitChar c = true) :
    c.isWhitespace = false := by
  have hw : c.isWhitespace = true ∨ c.isWhitespace = false := by
    cases c.isWhitespace <;> simp
  rcases hw with hw | hw
  · have : c = ' ' ∨ c = '\t' ∨ c = '\r' ∨ c = '\n' := by
      simpa [Char.isWhitespace, or_assoc] using hw
    rcases this with h1 | h1 | h1 | h1 <;> subst h1 <;> exact absurd h (by decide)
  · exact hw

theorem isDigitChar_ne_nl {c : Char} (h : isDigitChar c = true) : ¬ c = '\n' := by
  intro h1; subst h1; exact absurd h (by decide)

theorem isDigitChar_ne_cr {c : Char} (h : isDigitChar c = true) : ¬ c = '\r' := by
  intro h1; subst h1; exact absurd h (by decide)

theorem digitsVal_concat (ds : List Char) (c : Char) :
    digitsVal (ds ++ [c]) = digitsVal ds * 10 + (c.toNat - 48) := by
  simp [digitsVal, List.foldl_append]

theorem natToDecimalAux_spec : ∀ fuel n, n < fuel →
    natToDecimalAux fuel n ≠ [] ∧
    (natToDecimalAux fuel n).all isDigitChar = true ∧
    digitsVal (natToDecimalAux fuel n) = n := by
  intro fuel
  induction fuel with
  | zero => intro n h; omega
  | succ fuel ih =>
    intro n h
    by_cases h10 : n < 10
    · refine ⟨by simp [natToDecimalAux, h10], ?_, ?_⟩
      · simp [natToDecimalAux, h10, List.all_eq_true, (digitChar_spec n h10).1]
      · simp [natToDecimalAux, h10, digitsVal, (digitChar_spec n h10).2]
    · have hdiv : n / 10 < fuel := by
        have h1 : n / 10 < n := Nat.div_lt_self (by omega) (by omega)
        omega
      obtain ⟨hne, hall, hval⟩ := ih (n / 10) hdiv
      have hm : n % 10 < 10 := Nat.mod_lt _ (by omega)
      refine ⟨by simp [natToDecimalAux, h10], ?_, ?_⟩
      · simp only [natToDecimalAux, if_neg h10, List.all_append, hall, Bool.true_and]
        simp [List.all_eq_true, (digitChar_spec _ hm).1]
      · simp only [natToDecimalAux, if_neg h10, digitsVal_concat, hval, (digitChar_spec _ hm).2]
        have := Nat.div_add_mod n 10
        omega

theorem natToDecimal_spec (n : Nat) :
    natToDecimal n ≠ [] ∧ (natToDecimal n).all isDigitChar = true ∧
    digitsVal (natToDecimal n) = n :=
  natToDecimalAux_spec (n + 1) n (Nat.lt_succ_self n)

theorem parseNat_natToDecimal (n : Nat) : parseNat (natToDecimal n) = some n := by
  obtain ⟨hne, hall, hval⟩ := natToDecimal_spec n
  simp [parseNat, hne, hall, hval]

theorem natToDecimal_all_digits {c : Char} {n : Nat} (h : c ∈ natToDecimal n) :
    isDigitChar c = true :=
  List.all_eq_true.mp (natToDecimal_spec n).2.1 c h

theorem trimChars_natToDecimal (n : Nat) : trimChars (natToDecimal n) = natToDecimal n :=
  trimChars_eq_self
    (fun _ hch => isDigitChar_not_ws (natToDecimal_all_digits (mem_of_head?_eq hch)))
    (fun _ hch => isDigitChar_not_ws (natToDecimal_all_digits (mem_of_getLast?_eq hch)))

theorem stripCR_eq_self {cs : List Char} (h : ¬ cs.getLast? = some '\r') :
    stripCR cs = cs := by
  simp [stripCR, h]

theorem splitOnceEq_append {k : List Char} (h : '=' ∉ k) (v : List Char) :
    splitOnceEq (k ++ '=' :: v) = some (k, v) := by
  induction k with
  | nil => simp [splitOnceEq]
  | cons c k ih =>
    have hc : ¬ c = '=' := fun e => h (by simp [e])
    have hk : '=' ∉ k := fun hm => h (List.mem_cons_of_mem _ hm)
    simp [splitOnceEq, hc, ih hk]


/-- Concatenation of newline-terminated segments, the shape of every
checkpoint file the scanner writes. -/
def docOf : List (List Char) → List Char
  | [] => []
  | s :: rest => s ++ '\n' :: docOf rest

theorem splitOnChar_docOf {segs : List (List Char)} (h : ∀ s ∈ segs, '\n' ∉ s) :
    splitOnChar '\n' (docOf segs) = segs ++ [[]] := by
  induction segs with
  | nil => simp [docOf, splitOnChar]
  | cons s rest ih =>
    have hs : '\n' ∉ s := h s (by simp)
    have hr : ∀ t ∈ rest, '\n' ∉ t := fun t ht => h t (by simp [ht])
    have hys : splitOnChar '\n' ('\n' :: docOf rest) = [] :: (rest ++ [[]]) := by
      rw [splitOnChar_cons_sep, ih hr]
    have h2 := splitOnChar_append hs hys
    simpa [docOf] using h2

theorem rustLines_docOf {segs : List (List Char)} (h : ∀ s ∈ segs, '\n' ∉ s) :
    rustLines (String.mk (docOf segs)) = segs.map stripCR := by
  have hd : (String.mk (docOf segs)).data = docOf segs := rfl
  simp [rustLines, hd, splitOnChar_docOf h]

theorem to_string_data (c : Checkpoint) :
    (Checkpoint.to_string c).data =
      docOf ["next_index=".data ++ natToDecimal c.next_index,
             "targets=".data ++ c.targets_path.data,
             "output=".data ++ c.output_path.data,
             "mode=".data ++ c.mode.data] := by
  have hnl : ("\n" : String).data = ['\n'] := by decide
  simp [Checkpoint.to_string, String.data_append, docOf, hnl, List.append_assoc]

theorem stripCR_keyval {k v : List Char} (hkl : ¬ k.getLast? = some '\r')
    (hv : ∀ ch, v.getLast? = some ch → ¬ ch = '\r') : stripCR (k ++ v) = k ++ v := by
  apply stripCR_eq_self
  rw [List.getLast?_append]
  cases hvl : v.getLast? with
  | none => simpa [Option.or] using hkl
  | some ch =>
    simp only [Option.or]
    intro he
    injection he with he'
    exact hv ch hvl he'

/-- A field value that survives the checkpoint parser's trimming: it has no
newline and neither leading nor trailing whitespace. -/
def cleanField (s : String) : Prop :=
  ('\n' ∉ s.data) ∧
  ((match s.data.head? with | some ch => !ch.isWhitespace | none => true) &&
   (match s.data.getLast? with | some ch => !ch.isWhitespace | none => true)) = true

instance (s : String) : Decidable (cleanField s) := by
  unfold cleanField; infer_instance

theorem cleanField_head {s : String} (h : cleanField s) :
    ∀ ch, s.data.head? = some ch → ch.isWhitespace = false := by
  intro ch hch
  have h2 := h.2
  rw [hch] at h2
  cases hlast : s.data.getLast? with
  | none => rw [hlast] at h2; simpa using h2
  | some c2 => rw [hlast] at h2; simp at h2; exact h2.1

theorem cleanField_last {s : String} (h : cleanField s) :
    ∀ ch, s.data.getLast? = some ch → ch.isWhitespace = false := by
  intro ch hch
  have h2 := h.2
  rw [hch] at h2
  cases hhead : s.data.head? with
  | none => rw [hhead] at h2; simpa using h2
  | some c2 => rw [hhead] at h2; simp at h2; exact h2.2

theorem cleanField_trim {s : String} (h : cleanField s) : trimChars s.data = s.data :=
  trimChars_eq_self (cleanField_head h) (cleanField_last h)

theorem cleanField_last_ne_cr {s : String} (h : cleanField s) :
    ∀ ch, s.data.getLast? = some ch → ¬ ch = '\r' := by
  intro ch hch he
  have := cleanField_last h ch hch
  subst he
  exact absurd this (by decide)

theorem natToDecimal_last_ne_cr (n : Nat) :
    ∀ ch, (natToDecimal n).getLast? = some ch → ¬ ch = '\r' :=
  fun _ hch => isDigitChar_ne_cr (natToDecimal_all_digits (mem_of_getLast?_eq hch))

theorem natToDecimal_no_nl (n : Nat) : '\n' ∉ natToDecimal n :=
  fun hm => isDigitChar_ne_nl (natToDecimal_all_digits hm) rfl

theorem string_mk_data (s : String) : String.mk s.data = s := rfl


theorem rustLines_to_string (c : Checkpoint)
    (h1 : cleanField c.targets_path) (h2 : cleanField c.output_path)
    (h3 : cleanField c.mode) :
    rustLines (Checkpoint.to_string c) =
      ["next_index=".data ++ natToDecimal c.next_index,
       "targets=".data ++ c.targets_path.data,
       "output=".data ++ c.output_path.data,
       "mode=".data ++ c.mode.data] := by
  have hstr : Checkpoint.to_string c = String.mk (docOf
      ["next_index=".data ++ natToDecimal c.next_index,
       "targets=".data ++ c.targets_path.data,
       "output=".data ++ c.output_path.data,
       "mode=".data ++ c.mode.data]) := by
    rw [← string_mk_data (Checkpoint.to_string c), to_string_data]
  rw [hstr, rustLines_docOf ?hnl]
  case hnl =>
    intro s hs hm
    simp only [List.mem_cons, List.mem_singleton] at hs
    rcases hs with rfl | rfl | rfl | rfl | h0
    · rcases List.mem_append.mp hm with hk | hv
      · exact absurd hk (by decide)
      · exact natToDecimal_no_nl _ hv
    · rcases List.mem_append.mp hm with hk | hv
      · exact absurd hk (by decide)
      · exact h1.1 hv
    · rcases List.mem_append.mp hm with hk | hv
      · exact absurd hk (by decide)
      · exact h2.1 hv
    · rcases List.mem_append.mp hm with hk | hv
      · exact absurd hk (by decide)
      · exact h3.1 hv
    · exact absurd h0 (List.not_mem_nil s)
  simp only [List.map_cons, List.map_nil]
  rw [stripCR_keyval (by decide) (natToDecimal_last_ne_cr _),
      stripCR_keyval (by decide) (cleanField_last_ne_cr h1),
      stripCR_keyval (by decide) (cleanField_last_ne_cr h2),
      stripCR_keyval (by decide) (cleanField_last_ne_cr h3)]

theorem splitOnceEq_line (key : String) (v : List Char) (hk : '=' ∉ key.data)
    (hkey : (key ++ "=").data = key.data ++ ['=']) :
    splitOnceEq ((key ++ "=").data ++ v) = some (key.data, v) := by
  rw [hkey, List.append_assoc, List.singleton_append]
  exact splitOnceEq_append hk v

theorem kvs_to_string (c : Checkpoint)
    (h1 : cleanField c.targets_path) (h2 : cleanField c.output_path)
    (h3 : cleanField c.mode) :
    Checkpoint.kvs (Checkpoint.to_string c) =
      [("mode", c.mode), ("output", c.output_path), ("targets", c.targets_path),
       ("next_index", String.mk (natToDecimal c.next_index))] := by
  unfold Checkpoint.kvs
  rw [rustLines_to_string c h1 h2 h3]
  have e1 : splitOnceEq ("next_index=".data ++ natToDecimal c.next_index) =
      some ("next_index".data, natToDecimal c.next_index) := by
    have : ("next_index=" : String).data = "next_index".data ++ ['='] := by decide
    rw [this, List.append_assoc, List.singleton_append]
    exact splitOnceEq_append (by decide) _
  have e2 : splitOnceEq ("targets=".data ++ c.targets_path.data) =
      some ("targets".data, c.targets_path.data) := by
    have : ("targets=" : String).data = "targets".data ++ ['='] := by decide
    rw [this, List.append_assoc, List.singleton_append]
    exact splitOnceEq_append (by decide) _
  have e3 : splitOnceEq ("output=".data ++ c.output_path.data) =
      some ("output".data, c.output_path.data) := by
    have : ("output=" : String).data = "output".data ++ ['='] := by decide
    rw [this, List.append_assoc, List.singleton_append]
    exact splitOnceEq_append (by decide) _
  have e4 : splitOnceEq ("mode=".data ++ c.mode.data) =
      some ("mode".data, c.mode.data) := by
    have : ("mode=" : String).data = "mode".data ++ ['='] := by decide
    rw [this, List.append_assoc, List.singleton_append]
    exact splitOnceEq_append (by decide) _
  simp only [List.foldl_cons, List.foldl_nil, e1, e2, e3, e4]
  rw [cleanField_trim h1, cleanField_trim h2, cleanField_trim h3, trimChars_natToDecimal]
  have k1 : String.mk (trimChars "next_index".data) = "next_index" := by decide
  have k2 : String.mk (trimChars "targets".data) = "targets" := by decide
  have k3 : String.mk (trimChars "output".data) = "output" := by decide
  have k4 : String.mk (trimChars "mode".data) = "mode" := by decide
  rw [k1, k2, k3, k4, string_mk_data, string_mk_data, string_mk_data]

theorem from_str_to_string (c : Checkpoint)
    (h1 : cleanField c.targets_path) (h2 : cleanField c.output_path)
    (h3 : cleanField c.mode) :
    Checkpoint.from_str (Checkpoint.to_string c) = some c := by
  unfold Checkpoint.from_str
  rw [kvs_to_string c h1 h2 h3]
  have b1 : (("next_index" : String) == "mode") = false := by decide
  have b2 : (("next_index" : String) == "output") = false := by decide
  have b3 : (("next_index" : String) == "targets") = false := by decide
  have b4 : (("next_index" : String) == "next_index") = true := by decide
  have b5 : (("targets" : String) == "mode") = false := by decide
  have b6 : (("targets" : String) == "output") = false := by decide
  have b7 : (("targets" : String) == "targets") = true := by decide
  have b8 : (("output" : String) == "mode") = false := by decide
  have b9 : (("output" : String) == "output") = true := by decide
  have b10 : (("mode" : String) == "mode") = true := by decide
  simp only [List.lookup, b1, b2, b3, b4, b5, b6, b7, b8, b9, b10,
    cond_false, cond_true]
  have : parseNat (String.mk (natToDecimal c.next_index)).data = some c.next_index := by
    exact parseNat_natToDecimal c.next_index
  simp only [this]

theorem docOf_append (a b : List (List Char)) : docOf (a ++ b) = docOf a ++ docOf b := by
  induction a with
  | nil => simp [docOf]
  | cons s rest ih => simp [docOf, ih]

theorem from_str_to_string_junk (c : Checkpoint)
    (h1 : cleanField c.targets_path) (h2 : cleanField c.output_path)
    (h3 : cleanField c.mode) :
    Checkpoint.from_str (Checkpoint.to_string c ++ "color=red\n") = some c := by
  have hstr : Checkpoint.to_string c ++ "color=red\n" = String.mk (docOf
      ["next_index=".data ++ natToDecimal c.next_index,
       "targets=".data ++ c.targets_path.data,
       "output=".data ++ c.output_path.data,
       "mode=".data ++ c.mode.data,
       "color=red".data]) := by
    rw [← string_mk_data (Checkpoint.to_string c ++ "color=red\n")]
    show String.mk (Checkpoint.to_string c ++ "color=red\n").data = _
    rw [String.data_append, to_string_data]
    have : ("color=red\n" : String).data = docOf ["color=red".data] := by decide
    rw [this, ← docOf_append]
    simp only [List.cons_append, List.nil_append]
  have hlines : rustLines (Checkpoint.to_string c ++ "color=red\n") =
      ["next_index=".data ++ natToDecimal c.next_index,
       "targets=".data ++ c.targets_path.data,
       "output=".data ++ c.output_path.data,
       "mode=".data ++ c.mode.data,
       "color=red".data] := by
    rw [hstr, rustLines_docOf ?hnl]
    case hnl =>
      intro s hs hm
      simp only [List.mem_cons, List.mem_singleton] at hs
      rcases hs with rfl | rfl | rfl | rfl | rfl | h0
      · rcases List.mem_append.mp hm with hk | hv
        · exact absurd hk (by decide)
        · exact natToDecimal_no_nl _ hv
      · rcases List.mem_append.mp hm with hk | hv
        · exact absurd hk (by decide)
        · exact h1.1 hv
      · rcases List.mem_append.mp hm with hk | hv
        · exact absurd hk (by decide)
        · exact h2.1 hv
      · rcases List.mem_append.mp hm with hk | hv
        · exact absurd hk (by decide)
        · exact h3.1 hv
      · exact absurd hm (by decide)
      · exact absurd h0 (List.not_mem_nil s)
    simp only [List.map_cons, List.map_nil]
    rw [stripCR_keyval (by decide) (natToDecimal_last_ne_cr _),
        stripCR_keyval (by decide) (cleanField_last_ne_cr h1),
        stripCR_keyval (by decide) (cleanField_last_ne_cr h2),
        stripCR_keyval (by decide) (cleanField_last_ne_cr h3)]
    have : stripCR "color=red".data = "color=red".data := by decide
    rw [this]
  unfold Checkpoint.from_str Checkpoint.kvs
  rw [hlines]
  have e1 : splitOnceEq ("next_index=".data ++ natToDecimal c.next_index) =
      some ("next_index".data, natToDecimal c.next_index) := by
    have : ("next_index=" : String).data = "next_index".data ++ ['='] := by decide
    rw [this, List.append_assoc, List.singleton_append]
    exact splitOnceEq_append (by decide) _
  have e2 : splitOnceEq ("targets=".data ++ c.targets_path.data) =
      some ("targets".data, c.targets_path.data) := by
    have : ("targets=" : String).data = "targets".data ++ ['='] := by decide
    rw [this, List.append_assoc, List.singleton_append]
    exact splitOnceEq_append (by decide) _
  have e3 : splitOnceEq ("output=".data ++ c.output_path.data) =
      some ("output".data, c.output_path.data) := by
    have : ("output=" : String).data = "output".data ++ ['='] := by decide
    rw [this, List.append_assoc, List.singleton_append]
    exact splitOnceEq_append (by decide) _
  have e4 : splitOnceEq ("mode=".data ++ c.mode.data) =
      some ("mode".data, c.mode.data) := by
    have : ("mode=" : String).data = "mode".data ++ ['='] := by decide
    rw [this, List.append_assoc, List.singleton_append]
    exact splitOnceEq_append (by decide) _
  have e5 : splitOnceEq "color=red".data = some ("color".data, "red".data) := by decide
  simp only [List.foldl_cons, List.foldl_nil, e1, e2, e3, e4, e5]
  rw [cleanField_trim h1, cleanField_trim h2, cleanField_trim h3, trimChars_natToDecimal]
  have k1 : String.mk (trimChars "next_index".data) = "next_index" := by decide
  have k2 : String.mk (trimChars "targets".data) = "targets" := by decide
  have k3 : String.mk (trimChars "output".data) = "output" := by decide
  have k4 : String.mk (trimChars "mode".data) = "mode" := by decide
  have k5 : String.mk (trimChars "color".data) = "color" := by decide
  rw [k1, k2, k3, k4, k5, string_mk_data, string_mk_data, string_mk_data]
  have b0a : (("next_index" : String) == "color") = false := by decide
  have b0b : (("targets" : String) == "color") = false := by decide
  have b0c : (("output" : String) == "color") = false := by decide
  have b0d : (("mode" : String) == "color") = false := by decide
  have b1 : (("next_index" : String) == "mode") = false := by decide
  have b2 : (("next_index" : String) == "output") = false := by decide
  have b3 : (("next_index" : String) == "targets") = false := by decide
  have b4 : (("next_index" : String) == "next_index") = true := by decide
  have b5 : (("targets" : String) == "mode") = false := by decide
  have b6 : (("targets" : String) == "output") = false := by decide
  have b7 : (("targets" : String) == "targets") = true := by decide
  have b8 : (("output" : String) == "mode") = false := by decide
  have b9 : (("output" : String) == "output") = true := by decide
  have b10 : (("mode" : String) == "mode") = true := by decide
  simp only [List.lookup, b0a, b0b, b0c, b0d, b1, b2, b3, b4, b5, b6, b7, b8, b9, b10,
    cond_false, cond_true]
  simp only [parseNat_natToDecimal c.next_index]

theorem from_str_missing_key (data : String) :
    (List.lookup "next_index" (Checkpoint.kvs data) = none →
       Checkpoint.from_str data = none) ∧
    (List.lookup "targets" (Checkpoint.kvs data) = none →
       Checkpoint.from_str data = none) ∧
    (List.lookup "output" (Checkpoint.kvs data) = none →
       Checkpoint.from_str data = none) ∧
    (List.lookup "mode" (Checkpoint.kvs data) = none →
       Checkpoint.from_str data = none) := by
  refine ⟨fun h => ?_, fun h => ?_, fun h => ?_, fun h => ?_⟩
  · simp only [Checkpoint.from_str]
    rw [h]
  · simp only [Checkpoint.from_str]
    rw [h]
    cases hA : List.lookup "next_index" (Checkpoint.kvs data) <;> rfl
  · simp only [Checkpoint.from_str]
    rw [h]
    cases hA : List.lookup "next_index" (Checkpoint.kvs data) <;>
      cases hB : List.lookup "targets" (Checkpoint.kvs data) <;> rfl
  · simp only [Checkpoint.from_str]
    rw [h]
    cases hA : List.lookup "next_index" (Checkpoint.kvs data) <;>
      cases hB : List.lookup "targets" (Checkpoint.kvs data) <;>
      cases hC : List.lookup "output" (Checkpoint.kvs data) <;> rfl

/-- Model of `write_checkpoint` (`fs::write(path, checkpoint.to_string())`):
the checkpoint file's contents after the write. -/
def write_checkpoint (c : Checkpoint) : Option String :=
  some (Checkpoint.to_string c)

/-- Model of `read_checkpoint`: a missing file yields `none`, otherwise the
contents are parsed with `Checkpoint::from_str` (present but unparseable
also yields `none`). -/
def read_checkpoint (file : Option String) : Option Checkpoint :=
  match file with
  | none => none
  | some content => Checkpoint.from_str content

/-- **C7** (corrected). Checkpoint serialisation round-trips for every
checkpoint whose `targets`/`output`/`mode` fields contain no newline and no
leading or trailing whitespace (`from_str` trims values, so fields with
surrounding whitespace do not survive the round-trip as claimed — see the
counterexample); parsing ignores lines with unrecognised keys (here a
`color=red` line); and a text missing any of the four required keys
(`next_index`, `targets`, `output`, `mode`) parses to `none`, as does a
missing file. -/
theorem c7_checkpoint_roundtrip :
    (∀ c : Checkpoint, cleanField c.targets_path → cleanField c.output_path →
        cleanField c.mode →
        read_checkpoint (write_checkpoint c) = some c ∧
        Checkpoint.from_str (Checkpoint.to_string c ++ "color=red\n") = some c) ∧
    (∀ data : String,
      (List.lookup "next_index" (Checkpoint.kvs data) = none →
         Checkpoint.from_str data = none) ∧
      (List.lookup "targets" (Checkpoint.kvs data) = none →
         Checkpoint.from_str data = none) ∧
      (List.lookup "output" (Checkpoint.kvs data) = none →
         Checkpoint.from_str data = none) ∧
      (List.lookup "mode" (Checkpoint.kvs data) = none →
         Checkpoint.from_str data = none)) ∧
    read_checkpoint none = none := by
  refine ⟨fun c h1 h2 h3 => ⟨?_, from_str_to_string_junk c h1 h2 h3⟩,
          from_str_missing_key, rfl⟩
  show Checkpoint.from_str (Checkpoint.to_string c) = some c
  exact from_str_to_string c h1 h2 h3

/-- Witness for C7: the round-trip theorem applied to a concrete
checkpoint. -/
theorem c7_checkpoint_roundtrip_witness :
    read_checkpoint (write_checkpoint ⟨7, "targets.txt", "out.txt", "TrailMerge"⟩) =
      some ⟨7, "targets.txt", "out.txt", "TrailMerge"⟩ :=
  (c7_checkpoint_roundtrip.1 ⟨7, "targets.txt", "out.txt", "TrailMerge"⟩
    (by decide) (by decide) (by decide)).1

/-- Counterexample to C7 as stated: a checkpoint whose `targets` field has
leading whitespace does not round-trip, because `from_str` trims values. -/
theorem c7_roundtrip_counterexample :
    Checkpoint.from_str (Checkpoint.to_string ⟨3, " padded", "out", "TrailMerge"⟩) ≠
      some ⟨3, " padded", "out", "TrailMerge"⟩ := by decide


/-! ## Executor — `src/scanner/executor.rs` -/

/-- The executor's error type (`ExecutionError` in `executor.rs`).  The
carried error string is the `Display` rendering of the task's error
(`error.to_string()`). -/
inductive ExecutionError where
  | taskFailed (target : String) (error : String)
  | persistence (error : String)
  | internal (error : String)
deriving DecidableEq, Repr

namespace Executor

/-- State of `execute`'s scheduling loop: the in-flight futures of the
`FuturesUnordered` set (with their submission index and target), the
not-yet-pulled suffix of the target iterator, the next submission index
(`position`), and the buffered results in completion order. -/
structure ExecSt where
  pending : List (Nat × String)
  remaining : List String
  position : Nat
  results : List (Nat × String × String)
deriving DecidableEq, Repr

/-- The priming loop `while pending.len() < concurrency { … }`: pull up to
`budget` targets, assigning submission indices from `pos` on. -/
def primeLoop : Nat → Nat → List String → List (Nat × String) × List String × Nat
  | 0, pos, rem => ([], rem, pos)
  | _ + 1, pos, [] => ([], [], pos)
  | budget + 1, pos, t :: rest =>
    let pr := primeLoop budget (pos + 1) rest
    ((pos, t) :: pr.1, pr.2.1, pr.2.2)

/-- The executor state after priming (`concurrency` already clamped). -/
def initSt (targets : List String) (concurrency : Nat) : ExecSt :=
  let pr := primeLoop concurrency 0 targets
  { pending := pr.1, remaining := pr.2.1, position := pr.2.2, results := [] }

/-- One completion event of the `while let Some(result) = pending.next()`
loop.  The schedule choice picks which in-flight future completes next
(`FuturesUnordered` yields results in an order the caller cannot control,
so we quantify over it; the choice is reduced modulo the number of
in-flight futures).  The completing future runs `schedule_task`'s body: on
probe success the result is forwarded and buffered and the next target (if
any) is started; on probe error the loop aborts with `TaskFailed`. -/
def step {ε : Type} (display : ε → String) (probe : String → Except ε String)
    (s : ExecSt) (choice : Nat) : Except ExecutionError ExecSt :=
  if s.pending.isEmpty then .ok s
  else
    let idx := choice % s.pending.length
    let it := s.pending.getD idx (0, "")
    match probe it.2 with
    | .error e => .error (.taskFailed it.2 (display e))
    | .ok output =>
      let completed := s.pending.eraseIdx idx
      match s.remaining with
      | [] =>
        .ok { s with pending := completed, results := s.results ++ [(it.1, it.2, output)] }
      | next :: rest =>
        .ok { pending := completed ++ [(s.position, next)], remaining := rest,
              position := s.position + 1,
              results := s.results ++ [(it.1, it.2, output)] }

/-- Iterate `step` while futures remain in flight, consuming one schedule
entry per completion.  The fuel is only a structural-recursion device:
`execute` passes `targets.length`, which is exactly the number of
completions of a full run. -/
def runExec {ε : Type} (display : ε → String) (probe : String → Except ε String) :
    Nat → List Nat → ExecSt → Except ExecutionError ExecSt
  | 0, _, s => .ok s
  | fuel + 1, sched, s =>
    if s.pending.isEmpty then .ok s
    else
      match step display probe s (sched.headD 0) with
      | .error e => .error e
      | .ok s' => runExec display probe fuel sched.tail s'

/-- Model of `results.sort_by_key(|(index, _, _)| *index)`. -/
def sortByIndex (l : List (Nat × String × String)) : List (Nat × String × String) :=
  List.insertionSort (fun a b => a.1 ≤ b.1) l

/-- Model of `executor::execute(targets, concurrency, task, result_tx)`.
The messages sent to `result_tx` are exactly `(runExec …).results` in list
order (result forwarding and buffering happen together in the source), so
no separate sink state is needed.  `sched` resolves the completion order of
the in-flight futures. -/
def execute {ε : Type} (display : ε → String) (targets : List String)
    (concurrency : Nat) (probe : String → Except ε String) (sched : List Nat) :
    Except ExecutionError (List (String × String)) :=
  let conc := concurrency.max 1
  match runExec display probe targets.length sched (initSt targets conc) with
  | .error e => .error e
  | .ok s => .ok ((sortByIndex s.results).map (fun r => (r.2.1, r.2.2)))

end Executor


namespace Executor

/-- Executor loop invariant, relating a reachable loop state to the target
list and the probe: the untouched iterator suffix starts at `position`;
every in-flight pair carries the target at its submission index; every
buffered result came from a successful probe run on the target at its
index; the indices in flight or completed are exactly those below
`position`; and while the iterator is nonempty so is the in-flight set
(the loop starts a replacement whenever a future completes). -/
structure Inv {ε : Type} (targets : List String) (probe : String → Except ε String)
    (s : ExecSt) : Prop where
  remaining_eq : s.remaining = targets.drop s.position
  position_le : s.position ≤ targets.length
  pending_wf : ∀ p ∈ s.pending, targets[p.1]? = some p.2
  results_wf : ∀ r ∈ s.results, targets[r.1]? = some r.2.1 ∧ probe r.2.1 = .ok r.2.2
  perm : List.Perm (s.pending.map Prod.fst ++ s.results.map Prod.fst)
      (List.range s.position)
  no_stall : s.remaining ≠ [] → s.pending ≠ []

theorem primeLoop_spec (targets : List String) : ∀ (b pos : Nat),
    pos ≤ targets.length →
    (primeLoop b pos (targets.drop pos)).1.length = min b (targets.length - pos) ∧
    (primeLoop b pos (targets.drop pos)).2.2 =
      pos + (primeLoop b pos (targets.drop pos)).1.length ∧
    (primeLoop b pos (targets.drop pos)).2.1 =
      targets.drop (primeLoop b pos (targets.drop pos)).2.2 ∧
    (primeLoop b pos (targets.drop pos)).1.map Prod.fst =
      List.range' pos (primeLoop b pos (targets.drop pos)).1.length ∧
    (∀ p ∈ (primeLoop b pos (targets.drop pos)).1, targets[p.1]? = some p.2) := by
  intro b
  induction b with
  | zero =>
    intro pos hpos
    simp [primeLoop]
  | succ b ih =>
    intro pos hpos
    cases hdrop : targets.drop pos with
    | nil =>
      have hlen : targets.length ≤ pos := List.drop_eq_nil_iff.mp hdrop
      have h0 : targets.length - pos = 0 := by omega
      refine ⟨?_, ?_, ?_, ?_, ?_⟩
      · simp [primeLoop, h0]
      · simp [primeLoop]
      · simp only [primeLoop]
        exact hdrop.symm
      · simp [primeLoop]
      · simp [primeLoop]
    | cons t rest =>
      have hposlt : pos < targets.length := by
        by_contra hc
        rw [List.drop_eq_nil_iff.mpr (by omega)] at hdrop
        exact List.noConfusion hdrop
      have hrest : targets.drop (pos + 1) = rest := by
        have h1 : targets.drop (pos + 1) = (targets.drop pos).drop 1 := by
          rw [List.drop_drop, Nat.add_comm]
        rw [h1, hdrop]
        rfl
      have hget : targets[pos]? = some t := by
        have h0 := List.getElem?_drop targets pos 0
        rw [hdrop] at h0
        simpa using h0.symm
      obtain ⟨ih1, ih2, ih3, ih4, ih5⟩ := ih (pos + 1) (by omega)
      rw [hrest] at ih1 ih2 ih3 ih4 ih5
      have hunfold : primeLoop (b + 1) pos (t :: rest) =
          ((pos, t) :: (primeLoop b (pos + 1) rest).1,
           (primeLoop b (pos + 1) rest).2.1, (primeLoop b (pos + 1) rest).2.2) := rfl
      rw [hunfold]
      refine ⟨?_, ?_, ?_, ?_, ?_⟩
      · simp only [List.length_cons, ih1]
        omega
      · simp only [List.length_cons, ih2, ih1]
        try omega
      · simp only [ih3, ih2, ih1, List.length_cons]
      · simp only [List.map_cons, List.length_cons, ih4, ih1]
        rw [List.range'_succ]
      · intro p hp
        rcases List.mem_cons.mp hp with rfl | hp'
        · exact hget
        · exact ih5 p hp'

theorem initSt_inv {ε : Type} (targets : List String) (probe : String → Except ε String)
    (conc : Nat) (hconc : 1 ≤ conc) :
    Inv targets probe (initSt targets conc) ∧
    (initSt targets conc).pending.length + (initSt targets conc).remaining.length =
      targets.length ∧
    (initSt targets conc).pending.length ≤ conc := by
  have hspec := primeLoop_spec targets conc 0 (Nat.zero_le _)
  rw [List.drop_zero] at hspec
  obtain ⟨h1, h2, h3, h4, h5⟩ := hspec
  refine ⟨⟨?_, ?_, ?_, ?_, ?_, ?_⟩, ?_, ?_⟩
  · show (primeLoop conc 0 targets).2.1 = targets.drop (primeLoop conc 0 targets).2.2
    exact h3
  · show (primeLoop conc 0 targets).2.2 ≤ targets.length
    rw [h2, h1]
    omega
  · show ∀ p ∈ (primeLoop conc 0 targets).1, targets[p.1]? = some p.2
    exact h5
  · intro r hr
    exact absurd hr (List.not_mem_nil r)
  · show List.Perm ((primeLoop conc 0 targets).1.map Prod.fst ++
        List.map Prod.fst ([] : List (Nat × String × String)))
      (List.range (primeLoop conc 0 targets).2.2)
    rw [h4, h2, h1, List.range_eq_range']
    simp only [List.map_nil, List.append_nil]
    have he : (0 : Nat) + min conc (targets.length - 0) = min conc (targets.length - 0) := by
      omega
    rw [he]
  · show (primeLoop conc 0 targets).2.1 ≠ [] → (primeLoop conc 0 targets).1 ≠ []
    intro hrem
    have hrl := hrem
    rw [h3] at hrl
    have hlt : (primeLoop conc 0 targets).2.2 < targets.length := by
      by_contra hc
      exact hrl (List.drop_eq_nil_iff.mpr (by omega))
    rw [h2, h1] at hlt
    have hpos : 0 < (primeLoop conc 0 targets).1.length := by
      rw [h1]
      omega
    exact List.ne_nil_of_length_pos hpos
  · show (primeLoop conc 0 targets).1.length + (primeLoop conc 0 targets).2.1.length =
      targets.length
    rw [h3, List.length_drop, h2, h1]
    omega
  · show (primeLoop conc 0 targets).1.length ≤ conc
    rw [h1]
    omega

end Executor


namespace Executor

theorem perm_shift {i : Nat} {eFst rFst rangeL pFst : List Nat}
    (hfst : List.Perm pFst (i :: eFst)) (hperm : List.Perm (pFst ++ rFst) rangeL) :
    List.Perm (eFst ++ (rFst ++ [i])) rangeL :=
  (List.Perm.append_left eFst (List.perm_append_singleton i rFst)).trans
    (List.perm_middle.trans ((List.Perm.append_right rFst hfst.symm).trans hperm))

theorem perm_pull {i pos : Nat} {eFst rFst rangeL pFst : List Nat}
    (hfst : List.Perm pFst (i :: eFst)) (hperm : List.Perm (pFst ++ rFst) rangeL) :
    List.Perm ((eFst ++ [pos]) ++ (rFst ++ [i])) (rangeL ++ [pos]) :=
  (List.Perm.append_right _ (List.perm_append_singleton pos eFst)).trans
    ((List.Perm.cons pos (perm_shift hfst hperm)).trans
      (List.perm_append_singleton pos rangeL).symm)

theorem step_inv {ε : Type} (display : ε → String) {targets : List String}
    {f : String → String} {probe : String → Except ε String}
    (hp : ∀ t ∈ targets, probe t = .ok (f t))
    {pnd : List (Nat × String)} {rem : List String} {pos : Nat}
    {res : List (Nat × String × String)}
    (inv : Inv targets probe (ExecSt.mk pnd rem pos res)) (hne : pnd ≠ [])
    (choice : Nat) :
    ∃ s', step display probe (ExecSt.mk pnd rem pos res) choice = .ok s' ∧
      Inv targets probe s' ∧
      s'.pending.length + s'.remaining.length + 1 = pnd.length + rem.length ∧
      s'.pending.length ≤ pnd.length := by
  have hrem_eq : rem = targets.drop pos := inv.remaining_eq
  have hpos_le : pos ≤ targets.length := inv.position_le
  have hpend_wf : ∀ p ∈ pnd, targets[p.1]? = some p.2 := inv.pending_wf
  have hres_wf : ∀ r ∈ res, targets[r.1]? = some r.2.1 ∧ probe r.2.1 = .ok r.2.2 :=
    inv.results_wf
  have hperm : List.Perm (pnd.map Prod.fst ++ res.map Prod.fst) (List.range pos) :=
    inv.perm
  have hlen : 0 < pnd.length := List.length_pos.mpr hne
  have hidxlt : choice % pnd.length < pnd.length := Nat.mod_lt _ hlen
  have hempty : pnd.isEmpty = false := List.isEmpty_eq_false.mpr hne
  have hgetD : pnd.getD (choice % pnd.length) (0, "") = pnd[choice % pnd.length] :=
    List.getD_eq_getElem _ _ hidxlt
  have hmemit : pnd[choice % pnd.length] ∈ pnd := List.getElem_mem hidxlt
  have hwf := hpend_wf _ hmemit
  have htmem : (pnd[choice % pnd.length]).2 ∈ targets := List.getElem?_mem hwf
  have hprobe : probe (pnd[choice % pnd.length]).2 =
      .ok (f (pnd[choice % pnd.length]).2) := hp _ htmem
  have hpendperm : List.Perm pnd
      (pnd[choice % pnd.length] :: pnd.eraseIdx (choice % pnd.length)) :=
    (List.perm_cons_erase (List.getElem_mem hidxlt)).trans
      (List.Perm.cons _ (List.erase_getElem hidxlt))
  have hfst : List.Perm (pnd.map Prod.fst)
      ((pnd[choice % pnd.length]).1 ::
        (pnd.eraseIdx (choice % pnd.length)).map Prod.fst) := by
    simpa using hpendperm.map Prod.fst
  have herase : (pnd.eraseIdx (choice % pnd.length)).length + 1 = pnd.length :=
    List.length_eraseIdx_add_one hidxlt
  have heraseSub : ∀ p ∈ pnd.eraseIdx (choice % pnd.length), p ∈ pnd :=
    fun p hp' => List.Sublist.mem hp' (List.eraseIdx_sublist _ _)
  cases hcase : rem with
  | nil =>
    rw [hcase] at hrem_eq
    refine ⟨ExecSt.mk (pnd.eraseIdx (choice % pnd.length)) [] pos
      (res ++ [((pnd[choice % pnd.length]).1, (pnd[choice % pnd.length]).2,
        f (pnd[choice % pnd.length]).2)]), ?_, ?_, ?_, ?_⟩
    · show step display probe (ExecSt.mk pnd [] pos res) choice = _
      simp only [step, hempty, Bool.false_eq_true, if_false, hgetD, hprobe]
    · refine ⟨?_, hpos_le, ?_, ?_, ?_, ?_⟩
      · show ([] : List String) = targets.drop pos
        exact hrem_eq
      · intro p hp'
        exact hpend_wf p (heraseSub p hp')
      · intro r hr
        rcases List.mem_append.mp hr with hr | hr
        · exact hres_wf r hr
        · rcases List.mem_singleton.mp hr with rfl
          exact ⟨hwf, hprobe⟩
      · show List.Perm ((pnd.eraseIdx (choice % pnd.length)).map Prod.fst ++
            (res ++ [_]).map Prod.fst) (List.range pos)
        rw [List.map_append]
        exact perm_shift hfst hperm
      · intro hcon
        exact absurd rfl hcon
    · show (pnd.eraseIdx (choice % pnd.length)).length + List.length [] + 1 =
        pnd.length + List.length ([] : List String)
      simp only [List.length_nil]
      omega
    · show (pnd.eraseIdx (choice % pnd.length)).length ≤ pnd.length
      omega
  | cons next rest =>
    rw [hcase] at hrem_eq
    have hdropnext : targets[pos]? = some next := by
      have h0 := List.getElem?_drop targets pos 0
      rw [← hrem_eq] at h0
      simpa using h0.symm
    have hposlt : pos < targets.length := by
      have hne2 : targets.drop pos ≠ [] := by
        rw [← hrem_eq]
        exact List.cons_ne_nil _ _
      by_contra hc
      exact hne2 (List.drop_eq_nil_iff.mpr (by omega))
    have hrestdrop : rest = targets.drop (pos + 1) := by
      have h1 : targets.drop (pos + 1) = (targets.drop pos).drop 1 := by
        rw [List.drop_drop, Nat.add_comm]
      rw [h1, ← hrem_eq]
      rfl
    refine ⟨ExecSt.mk (pnd.eraseIdx (choice % pnd.length) ++ [(pos, next)]) rest
      (pos + 1) (res ++ [((pnd[choice % pnd.length]).1, (pnd[choice % pnd.length]).2,
        f (pnd[choice % pnd.length]).2)]), ?_, ?_, ?_, ?_⟩
    · show step display probe (ExecSt.mk pnd (next :: rest) pos res) choice = _
      simp only [step, hempty, Bool.false_eq_true, if_false, hgetD, hprobe]
    · refine ⟨hrestdrop, ?_, ?_, ?_, ?_, ?_⟩
      · show pos + 1 ≤ targets.length
        omega
      · intro p hp'
        rcases List.mem_append.mp hp' with hp' | hp'
        · exact hpend_wf p (heraseSub p hp')
        · rcases List.mem_singleton.mp hp' with rfl
          exact hdropnext
      · intro r hr
        rcases List.mem_append.mp hr with hr | hr
        · exact hres_wf r hr
        · rcases List.mem_singleton.mp hr with rfl
          exact ⟨hwf, hprobe⟩
      · show List.Perm ((pnd.eraseIdx (choice % pnd.length) ++ [(pos, next)]).map
            Prod.fst ++ (res ++ [_]).map Prod.fst) (List.range (pos + 1))
        rw [List.map_append, List.map_append, List.range_succ]
        exact perm_pull hfst hperm
      · intro _
        show pnd.eraseIdx (choice % pnd.length) ++ [(pos, next)] ≠ []
        simp
    · show (pnd.eraseIdx (choice % pnd.length) ++ [(pos, next)]).length +
        rest.length + 1 = pnd.length + (next :: rest).length
      rw [List.length_append]
      simp only [List.length_cons, List.length_singleton, List.length_nil]
      omega
    · show (pnd.eraseIdx (choice % pnd.length) ++ [(pos, next)]).length ≤ pnd.length
      rw [List.length_append]
      simp only [List.length_singleton, List.length_cons, List.length_nil]
      omega

end Executor


namespace Executor

theorem runExec_ok {ε : Type} (display : ε → String) {targets : List String}
    {f : String → String} {probe : String → Except ε String}
    (hp : ∀ t ∈ targets, probe t = .ok (f t)) :
    ∀ (fuel : Nat) (sched : List Nat) (s : ExecSt), Inv targets probe s →
      fuel = s.pending.length + s.remaining.length →
      ∃ s', runExec display probe fuel sched s = .ok s' ∧ Inv targets probe s' ∧
        s'.pending = [] ∧ s'.remaining = [] := by
  intro fuel
  induction fuel with
  | zero =>
    intro sched s inv hfuel
    refine ⟨s, rfl, inv, ?_, ?_⟩
    · exact List.eq_nil_of_length_eq_zero (by omega)
    · exact List.eq_nil_of_length_eq_zero (by omega)
  | succ fuel ih =>
    intro sched s inv hfuel
    by_cases hpe : s.pending = []
    · have hre : s.remaining = [] := by
        by_contra hc
        exact (inv.no_stall hc) hpe
      rw [hpe, hre] at hfuel
      simp at hfuel
    · obtain ⟨s', hstep, inv', hlen, _⟩ := step_inv display hp inv hpe (sched.headD 0)
      have hstep' : step display probe s (sched.headD 0) = .ok s' := hstep
      have hempty : s.pending.isEmpty = false := List.isEmpty_eq_false.mpr hpe
      have hrun : runExec display probe (fuel + 1) sched s =
          runExec display probe fuel sched.tail s' := by
        simp only [runExec, hempty, Bool.false_eq_true, if_false, hstep']
      obtain ⟨s'', h1, h2, h3, h4⟩ := ih sched.tail s' inv' (by omega)
      exact ⟨s'', by rw [hrun]; exact h1, h2, h3, h4⟩

theorem eq_of_perm_sorted {α : Type _} (key : α → Nat) :
    ∀ (m l : List α), List.Perm l m → l.Pairwise (fun a b => key a ≤ key b) →
      m.Pairwise (fun a b => key a < key b) → l = m := by
  intro m
  induction m with
  | nil =>
    intro l hperm _ _
    exact hperm.eq_nil
  | cons b m ih =>
    intro l hperm hsorted hstrict
    cases l with
    | nil =>
      have := hperm.length_eq
      simp at this
    | cons a l' =>
      have hab : a = b := by
        by_contra hne
        have hbl' : b ∈ l' := by
          rcases List.mem_cons.mp (hperm.mem_iff.mpr (List.mem_cons_self b m)) with h | h
          · exact absurd h.symm hne
          · exact h
        have ham : a ∈ m := by
          rcases List.mem_cons.mp (hperm.mem_iff.mp (List.mem_cons_self a l')) with h | h
          · exact absurd h hne
          · exact h
        have h1 : key a ≤ key b := (List.pairwise_cons.mp hsorted).1 b hbl'
        have h2 : key b < key a := (List.pairwise_cons.mp hstrict).1 a ham
        omega
      subst hab
      have hperm' : List.Perm l' m := hperm.cons_inv
      rw [ih l' hperm' (List.Pairwise.of_cons hsorted) (List.Pairwise.of_cons hstrict)]

instance : IsTotal (Nat × String × String) (fun a b => a.1 ≤ b.1) :=
  ⟨fun a b => Nat.le_total a.1 b.1⟩

instance : IsTrans (Nat × String × String) (fun a b => a.1 ≤ b.1) :=
  ⟨fun _ _ _ h1 h2 => Nat.le_trans h1 h2⟩

theorem sortByIndex_eq_of_perm {l m : List (Nat × String × String)}
    (hperm : List.Perm l m) (hstrict : m.Pairwise (fun a b => a.1 < b.1)) :
    sortByIndex l = m := by
  have h1 : List.Perm (sortByIndex l) m := by
    unfold sortByIndex
    exact (List.perm_insertionSort _ l).trans hperm
  have h2 : (sortByIndex l).Pairwise (fun a b => a.1 ≤ b.1) := by
    unfold sortByIndex
    exact List.sorted_insertionSort _ l
  exact eq_of_perm_sorted (fun r => r.1) m (sortByIndex l) h1 h2 hstrict

theorem range_map_pairs (targets : List String) (f : String → String) :
    (List.range targets.length).map
      (fun i => ((targets[i]?).getD "", f ((targets[i]?).getD ""))) =
      targets.map (fun t => (t, f t)) := by
  induction targets with
  | nil => simp
  | cons t ts ih =>
    simp only [List.length_cons, List.range_succ_eq_map, List.map_cons, List.map_map]
    have hhead : (((t :: ts)[0]?).getD "", f (((t :: ts)[0]?).getD "")) = (t, f t) := by
      simp
    have htail : List.map ((fun i => (((t :: ts)[i]?).getD "",
        f (((t :: ts)[i]?).getD ""))) ∘ Nat.succ) (List.range ts.length) =
        List.map (fun u => (u, f u)) ts := by
      rw [← ih]
      apply List.map_congr_left
      intro i hi
      simp [Function.comp, List.getElem?_cons_succ]
    rw [hhead, htail]

end Executor


namespace Executor

/-- Main executor lemma: when every probe invocation succeeds, `execute`
returns, for any schedule of completion orders, exactly the input targets
paired with their own probe outputs, in submission order. -/
theorem execute_ok {ε : Type} (display : ε → String) (targets : List String)
    (N : Nat) (probe : String → Except ε String) (f : String → String)
    (hp : ∀ t ∈ targets, probe t = .ok (f t)) (sched : List Nat) :
    execute display targets N probe sched = .ok (targets.map (fun t => (t, f t))) := by
  have hconc : 1 ≤ N.max 1 := Nat.le_max_right _ _
  obtain ⟨inv0, hwork0, _⟩ := initSt_inv targets probe (N.max 1) hconc
  obtain ⟨s', hrun, inv', hpe, hre⟩ := runExec_ok display hp targets.length sched
    (initSt targets (N.max 1)) inv0 (by omega)
  have hpos : s'.position = targets.length := by
    have h1 := inv'.remaining_eq
    rw [hre] at h1
    have h2 := List.drop_eq_nil_iff.mp h1.symm
    have h3 := inv'.position_le
    omega
  have hpermFst : List.Perm (s'.results.map Prod.fst) (List.range targets.length) := by
    have h := inv'.perm
    rw [hpe, hpos] at h
    simpa using h
  have hself : ∀ r ∈ s'.results,
      (r.1, (targets[r.1]?).getD "", f ((targets[r.1]?).getD "")) = r := by
    intro r hr
    obtain ⟨hget, hpr⟩ := inv'.results_wf r hr
    have ht : r.2.1 ∈ targets := List.getElem?_mem hget
    have hpf : probe r.2.1 = .ok (f r.2.1) := hp _ ht
    have houtput : f r.2.1 = r.2.2 := by
      rw [hpf] at hpr
      injection hpr
    rw [hget]
    simp only [Option.getD_some]
    rw [houtput]
  have hresults_eq : s'.results = (s'.results.map Prod.fst).map
      (fun i => (i, (targets[i]?).getD "", f ((targets[i]?).getD ""))) := by
    rw [List.map_map]
    have h1 : s'.results.map ((fun i => (i, (targets[i]?).getD "",
        f ((targets[i]?).getD ""))) ∘ Prod.fst) = s'.results.map id :=
      List.map_congr_left (fun r hr => hself r hr)
    rw [h1, List.map_id]
  have hcanon : List.Perm s'.results ((List.range targets.length).map
      (fun i => (i, (targets[i]?).getD "", f ((targets[i]?).getD "")))) := by
    rw [hresults_eq]
    exact hpermFst.map _
  have hstrict : (((List.range targets.length).map
      (fun i => (i, (targets[i]?).getD "", f ((targets[i]?).getD ""))))).Pairwise
      (fun a b => a.1 < b.1) := by
    rw [List.pairwise_map]
    exact List.pairwise_lt_range _
  have hsort := sortByIndex_eq_of_perm hcanon hstrict
  show (match runExec display probe targets.length sched (initSt targets (N.max 1)) with
    | .error e => .error e
    | .ok s => .ok ((sortByIndex s.results).map (fun r => (r.2.1, r.2.2)))) =
    Except.ok (targets.map (fun t => (t, f t)))
  rw [hrun]
  show Except.ok ((sortByIndex s'.results).map (fun r => (r.2.1, r.2.2))) =
    Except.ok (targets.map (fun t => (t, f t)))
  rw [hsort, List.map_map]
  have hfinal : (List.range targets.length).map ((fun r => (r.2.1, r.2.2)) ∘
      (fun i => (i, (targets[i]?).getD "", f ((targets[i]?).getD "")))) =
      targets.map (fun t => (t, f t)) := range_map_pairs targets f
  rw [hfinal]

end Executor


/-! ## Scanner facade — `src/scanner/scanner.rs` -/

/-- One scan result row (`ScanOutput` in `scanner.rs`). -/
structure ScanOutput where
  target : String
  output : String
deriving DecidableEq, Repr

/-- The scanner facade state: the clamped concurrency (`TargetScanner`). -/
structure TargetScanner where
  concurrency : Nat
deriving DecidableEq, Repr

/-- Model of `TargetScanner::new`: `concurrency.max(1)` — a requested
concurrency of 0 is clamped to 1. -/
def TargetScanner.new (concurrency : Nat) : TargetScanner :=
  ⟨concurrency.max 1⟩

/-- Model of `ProgressTask::execute`, the progress-reporting wrapper the
facade puts around the probe: on success the output is passed through
(after printing non-empty findings out of band — a side effect outside the
model); on any probe error the wrapper just advances the progress bar and
returns `Ok(String::new())`, absorbing the error. -/
def progressTaskExecute {ε : Type} (probe : String → Except ε String)
    (target : String) : Except ε String :=
  match probe target with
  | .ok output => .ok output
  | .error _ => .ok ""

/-- Model of `TargetScanner::scan` (and `scan_with_options` with no
recorder configured): run the executor over the materialised targets with
the progress-wrapped task and convert its rows to `ScanOutput`.  When a
recorder is configured the executor additionally forwards each completion
to the recorder channel; that pipeline is modelled in the recorder section
below. -/
def TargetScanner.scan {ε : Type} (self : TargetScanner) (display : ε → String)
    (targets : List String) (probe : String → Except ε String) (sched : List Nat) :
    Except ExecutionError (List ScanOutput) :=
  match Executor.execute display targets self.concurrency
      (progressTaskExecute probe) sched with
  | .error e => .error e
  | .ok records => .ok (records.map (fun r => ScanOutput.mk r.1 r.2))

/-- **C1** (confirmed). For every target sequence, concurrency `N ≥ 1` and
completion schedule, if every probe invocation succeeds then the executor
returns exactly the targets paired with their own probe outputs in
submission order, and the Scanner facade returns the same rows as
`ScanOutput`s. -/
theorem c1_order_preservation {ε : Type} (display : ε → String)
    (targets : List String) (N : Nat) (hN : 1 ≤ N)
    (probe : String → Except ε String) (f : String → String)
    (hp : ∀ t ∈ targets, probe t = .ok (f t)) (sched : List Nat) :
    Executor.execute display targets N probe sched =
      .ok (targets.map (fun t => (t, f t))) ∧
    (TargetScanner.new N).scan display targets probe sched =
      .ok (targets.map (fun t => ScanOutput.mk t (f t))) := by
  constructor
  · exact Executor.execute_ok display targets N probe f hp sched
  · unfold TargetScanner.scan
    have h2 : ∀ t ∈ targets, progressTaskExecute probe t = .ok (f t) := by
      intro t ht
      unfold progressTaskExecute
      rw [hp t ht]
    rw [Executor.execute_ok display targets (TargetScanner.new N).concurrency
      (progressTaskExecute probe) f h2 sched]
    simp [List.map_map]

/-- Witness for C1 at a concrete scan: two targets, concurrency 2, the
second future completing first. -/
theorem c1_order_preservation_witness :
    Executor.execute (fun e : String => e) ["a", "b"] 2
      (fun t => .ok (String.append t t)) [1, 0] =
      .ok [("a", "aa"), ("b", "bb")] :=
  (c1_order_preservation (fun e : String => e) ["a", "b"] 2 (by decide)
    (fun t => .ok (String.append t t)) (fun t => String.append t t)
    (fun t _ => rfl) [1, 0]).1

/-- **C3** (corrected, amended part). Through the Scanner facade probe
errors do not abort the scan: `ProgressTask::execute` converts every probe
error into `Ok` with empty output, so the scan always completes, pairing a
failing target with the empty string.  `TaskFailed` can arise only from a
task handed directly to the executor, and the facade's wrapped task never
errors. -/
theorem c3_errors_absorbed {ε : Type} (display : ε → String) (targets : List String)
    (N : Nat) (probe : String → Except ε String) (sched : List Nat) :
    (TargetScanner.new N).scan display targets probe sched =
      .ok (targets.map (fun t => ScanOutput.mk t
        (match probe t with | .ok o => o | .error _ => ""))) := by
  unfold TargetScanner.scan
  have h2 : ∀ t ∈ targets, progressTaskExecute probe t =
      .ok (match probe t with | .ok o => o | .error _ => "") := by
    intro t ht
    unfold progressTaskExecute
    cases probe t <;> rfl
  rw [Executor.execute_ok display targets (TargetScanner.new N).concurrency
    (progressTaskExecute probe) _ h2 sched]
  simp [List.map_map]

/-- Counterexample to C3 as stated: a scan through the Scanner facade whose
only probe invocation returns an error (`InvalidTarget`-style) does NOT
abort with `TaskFailed` — it returns `Ok` with the failing target paired
with an empty output. -/
theorem c3_counterexample :
    (TargetScanner.new 4).scan (fun e : String => e) ["http://bad"]
      (fun _ => .error "invalid target") [] =
      .ok [ScanOutput.mk "http://bad" ""] := rfl


namespace Executor

theorem step_pending_le {ε : Type} (display : ε → String)
    (probe : String → Except ε String) (s : ExecSt) (choice : Nat) (s' : ExecSt)
    (h : step display probe s choice = .ok s') :
    s'.pending.length ≤ max s.pending.length 1 := by
  by_cases hpe : s.pending.isEmpty
  · simp only [step, hpe, if_true] at h
    injection h with h
    subst h
    omega
  · have hne : s.pending ≠ [] := List.isEmpty_eq_false.mp (Bool.eq_false_iff.mpr hpe)
    have hlen : 0 < s.pending.length := List.length_pos.mpr hne
    have hidxlt : choice % s.pending.length < s.pending.length := Nat.mod_lt _ hlen
    have herase : (s.pending.eraseIdx (choice % s.pending.length)).length + 1 =
        s.pending.length := List.length_eraseIdx_add_one hidxlt
    simp only [step, Bool.not_eq_true] at h
    rw [Bool.eq_false_iff.mpr hpe] at h
    simp only [Bool.false_eq_true, if_false] at h
    cases hprobe : probe (s.pending.getD (choice % s.pending.length) (0, "")).2 with
    | error e =>
      rw [hprobe] at h
      exact absurd h (by simp)
    | ok output =>
      rw [hprobe] at h
      cases hrem : s.remaining with
      | nil =>
        rw [hrem] at h
        injection h with h
        subst h
        simp only [List.length_nil]
        omega
      | cons next rest =>
        rw [hrem] at h
        injection h with h
        subst h
        simp only [List.length_append, List.length_cons, List.length_nil]
        omega

theorem runExec_pending_le {ε : Type} (display : ε → String)
    (probe : String → Except ε String) (C : Nat) (hC : 1 ≤ C) :
    ∀ (fuel : Nat) (sched : List Nat) (s : ExecSt), s.pending.length ≤ C →
      ∀ s', runExec display probe fuel sched s = .ok s' → s'.pending.length ≤ C := by
  intro fuel
  induction fuel with
  | zero =>
    intro sched s hs s' h
    injection h with h
    subst h
    exact hs
  | succ fuel ih =>
    intro sched s hs s' h
    by_cases hpe : s.pending.isEmpty
    · simp only [runExec, hpe, if_true] at h
      injection h with h
      subst h
      exact hs
    · have hfalse : s.pending.isEmpty = false := Bool.eq_false_iff.mpr hpe
      simp only [runExec, hfalse, Bool.false_eq_true, if_false] at h
      cases hstep : step display probe s (sched.headD 0) with
      | error e =>
        rw [hstep] at h
        exact absurd h (by simp)
      | ok s1 =>
        rw [hstep] at h
        have hb := step_pending_le display probe s (sched.headD 0) s1 hstep
        exact ih sched.tail s1 (by omega) s' h

end Executor


/-- **C5** (confirmed). Bounded concurrency: with requested concurrency
`N ≥ 1`, at every point of any execution of the executor (that is, after
any number of completion steps, for any schedule and any probe) the number
of in-flight probe invocations never exceeds `N`.  The executor primes at
most `N` targets and starts a new one only when an in-flight one
completes. -/
theorem c5_bounded_concurrency {ε : Type} (display : ε → String)
    (targets : List String) (N : Nat) (hN : 1 ≤ N)
    (probe : String → Except ε String) (sched : List Nat) (fuel : Nat)
    (s' : Executor.ExecSt)
    (h : Executor.runExec display probe fuel sched
      (Executor.initSt targets (N.max 1)) = .ok s') :
    s'.pending.length ≤ N := by
  have hmax : N.max 1 = N := Nat.max_eq_left hN
  have hspec := Executor.primeLoop_spec targets (N.max 1) 0 (Nat.zero_le _)
  rw [List.drop_zero] at hspec
  have hinit : (Executor.initSt targets (N.max 1)).pending.length ≤ N := by
    show (Executor.primeLoop (N.max 1) 0 targets).1.length ≤ N
    rw [hspec.1, hmax]
    omega
  exact Executor.runExec_pending_le display probe N hN fuel sched
    (Executor.initSt targets (N.max 1)) hinit s' h

/-- Witness for C5: three targets at concurrency 2; after priming and one
completion step the in-flight set still has two futures. -/
theorem c5_bounded_concurrency_witness :
    (Executor.ExecSt.mk [(1, "b"), (2, "c")] [] 3 [(0, "a", "a")]).pending.length ≤ 2 :=
  c5_bounded_concurrency (fun e : String => e) ["a", "b", "c"] 2 (by decide)
    (fun t => .ok t) [0] 1 (Executor.ExecSt.mk [(1, "b"), (2, "c")] [] 3 [(0, "a", "a")])
    rfl

/-- **C10** (confirmed). Calling the executor with concurrency 0 behaves
exactly as with concurrency 1 (`execute` clamps with `.max(1)` before
priming, so no target is skipped and the pool cannot stall), and
`TargetScanner::new` likewise clamps a requested concurrency of 0 to 1. -/
theorem c10_zero_concurrency {ε : Type} (display : ε → String)
    (targets : List String) (probe : String → Except ε String) (sched : List Nat) :
    Executor.execute display targets 0 probe sched =
      Executor.execute display targets 1 probe sched ∧
    TargetScanner.new 0 = TargetScanner.new 1 ∧
    (TargetScanner.new 0).concurrency = 1 := by
  refine ⟨rfl, rfl, rfl⟩


/-! ## Recorder — `src/scanner/recorder.rs` -/

namespace Recorder

/-- `RecorderConfig` (the fields with observable effect in the pure model:
paths and mode as written into checkpoints, the resume base index, and
this run's target count).  `truncate_output` and `flush_interval` govern
file opening and flush timing only; the model's output file is the byte
stream written during this run. -/
structure RecorderConfig where
  output_path : String
  checkpoint_path : String
  targets_path : String
  mode : String
  base_index : Nat
  total_targets : Nat
deriving DecidableEq, Repr

/-- Model of `RecorderConfig::checkpoint_template`. -/
def RecorderConfig.checkpoint_template (cfg : RecorderConfig) (next_index : Nat) :
    Checkpoint :=
  Checkpoint.mk next_index cfg.targets_path cfg.output_path cfg.mode

/-- A buffered record awaiting its turn (`PendingRecord`). -/
structure PendingRecord where
  target : String
  output : String
deriving DecidableEq, Repr

/-- The recorder's input messages (`RecorderMessage`). -/
inductive RecorderMessage where
  | record (absolute_index : Nat) (target : String) (output : String)
  | flush
deriving DecidableEq, Repr

/-- Events observable on disk, in the order the recorder performs them:
a record appended to the output stream (tagged with the absolute index
being committed) or a rewrite of the checkpoint file with a new
`next_index`. -/
inductive RecEvent where
  | wrote (index : Nat) (target : String) (output : String)
  | checkpointWrite (next_index : Nat)
deriving DecidableEq, Repr

/-- Recorder state: `next_expected_index`, the reorder buffer (an
association list with insert-replace semantics, modelling the `BTreeMap`),
the bytes written to the output file this run, the checkpoint file, and
two histories: the on-disk event trace and the committed records in commit
order. -/
structure RecState where
  next_expected_index : Nat
  pending : List (Nat × PendingRecord)
  fileContent : String
  checkpointFile : Option Checkpoint
  trace : List RecEvent
  committed : List (Nat × String × String)
deriving DecidableEq, Repr

/-- Reorder-buffer lookup (`self.pending.remove(&self.next_expected_index)`,
the lookup half). -/
def lookupPending (k : Nat) : List (Nat × PendingRecord) → Option PendingRecord
  | [] => none
  | (k', v) :: rest => if k' = k then some v else lookupPending k rest

/-- Reorder-buffer removal (the removal half of `BTreeMap::remove`). -/
def erasePending (k : Nat) : List (Nat × PendingRecord) → List (Nat × PendingRecord)
  | [] => []
  | (k', v) :: rest =>
    if k' = k then erasePending k rest else (k', v) :: erasePending k rest

/-- Reorder-buffer insertion (`BTreeMap::insert` replaces any existing
binding). -/
def insertPending (k : Nat) (v : PendingRecord)
    (m : List (Nat × PendingRecord)) : List (Nat × PendingRecord) :=
  (k, v) :: erasePending k m

/-- One committed record's contribution to the output file:
`"<target>\t<output>\n"` when the output is not whitespace-only, nothing
otherwise. -/
def chunkOf (r : Nat × String × String) : String :=
  if trimIsEmpty r.2.2 then "" else r.2.1 ++ "\t" ++ r.2.2 ++ "\n"

/-- One step of `ScanRecorder::commit_ready`'s `while` loop, driven by
fuel to keep the recursion structural (the fuel is set to more than the
buffer size, which bounds the number of loop iterations).  While the
buffer holds `next_expected_index`: remove it, append
`"<target>\t<output>\n"` to the output stream when the output is not
whitespace-only, increment `next_expected_index`, and rewrite the
checkpoint file with the advanced index. -/
def commitReadyAux (cfg : RecorderConfig) : Nat → RecState → RecState
  | 0, s => s
  | fuel + 1, s =>
    match lookupPending s.next_expected_index s.pending with
    | none => s
    | some rec =>
      commitReadyAux cfg fuel
        (RecState.mk (s.next_expected_index + 1)
          (erasePending s.next_expected_index s.pending)
          (s.fileContent ++ chunkOf (s.next_expected_index, rec.target, rec.output))
          (some (cfg.checkpoint_template (s.next_expected_index + 1)))
          (s.trace ++
            (if trimIsEmpty rec.output then []
             else [RecEvent.wrote s.next_expected_index rec.target rec.output]) ++
            [RecEvent.checkpointWrite (s.next_expected_index + 1)])
          (s.committed ++ [(s.next_expected_index, rec.target, rec.output)]))

/-- Model of `ScanRecorder::commit_ready`. -/
def commitReady (cfg : RecorderConfig) (s : RecState) : RecState :=
  commitReadyAux cfg (s.pending.length + 1) s

/-- Model of `ScanRecorder::handle_record`: indices below the checkpoint
are duplicates and are discarded; otherwise the record enters the reorder
buffer and every ready entry is committed. -/
def handleRecord (cfg : RecorderConfig) (s : RecState) (index : Nat)
    (target output : String) : RecState :=
  if index < s.next_expected_index then s
  else commitReady cfg
    (RecState.mk s.next_expected_index
      (insertPending index (PendingRecord.mk target output) s.pending)
      s.fileContent s.checkpointFile s.trace s.committed)

/-- Model of the `ScanRecorder::finish` receive loop body: `Record`
messages go through `handle_record`; `Flush` messages (and timer ticks)
flush the output file, which has no effect on the modelled byte stream. -/
def processMessage (cfg : RecorderConfig) (s : RecState) :
    RecorderMessage → RecState
  | .record i t o => handleRecord cfg s i t o
  | .flush => s

/-- The receive loop over the whole message stream. -/
def processMessages (cfg : RecorderConfig) (msgs : List RecorderMessage)
    (s : RecState) : RecState :=
  msgs.foldl (processMessage cfg) s

/-- The recorder's state as `ScanRecorder::run` constructs it:
`next_expected_index` starts at `base_index`, the buffer is empty and this
run has written nothing yet; the checkpoint file holds whatever a previous
run left (`f0`). -/
def initState (cfg : RecorderConfig) (f0 : Option Checkpoint) : RecState :=
  RecState.mk cfg.base_index [] "" f0 [] []

/-- Result of a full recorder run: the final state plus whether `finish`
deleted the checkpoint file. -/
structure RunResult where
  state : RecState
  removedCheckpoint : Bool
deriving DecidableEq, Repr

/-- Model of the tail of `ScanRecorder::finish`, after the channel closes:
drain the remaining ready entries, final flush, and delete the checkpoint
file exactly when `next_expected_index ≥ base_index + total_targets`. -/
def finish (cfg : RecorderConfig) (s : RecState) : RunResult :=
  let s1 := commitReady cfg s
  if cfg.base_index + cfg.total_targets ≤ s1.next_expected_index then
    RunResult.mk (RecState.mk s1.next_expected_index s1.pending s1.fileContent
      none s1.trace s1.committed) true
  else RunResult.mk s1 false

/-- Model of `ScanRecorder::run`: process the message stream until the
channel closes, then finish. -/
def run (cfg : RecorderConfig) (f0 : Option Checkpoint)
    (msgs : List RecorderMessage) : RunResult :=
  finish cfg (processMessages cfg msgs (initState cfg f0))

/-- The concatenated event trace a list of committed records produces. -/
def commitSeq : List (Nat × String × String) → List RecEvent
  | [] => []
  | (i, t, o) :: rest =>
    ((if trimIsEmpty o then [] else [RecEvent.wrote i t o]) ++
      [RecEvent.checkpointWrite (i + 1)]) ++ commitSeq rest

/-- The output-file bytes a list of committed records produces. -/
def fileOf : List (Nat × String × String) → String
  | [] => ""
  | r :: rest => chunkOf r ++ fileOf rest

/-- The sequence of `next_index` values written to the checkpoint file, in
write order. -/
def checkpointValues (tr : List RecEvent) : List Nat :=
  tr.filterMap (fun e =>
    match e with
    | RecEvent.checkpointWrite n => some n
    | _ => none)

end Recorder


namespace Recorder

theorem erasePending_length_le (k : Nat) :
    ∀ m : List (Nat × PendingRecord), (erasePending k m).length ≤ m.length := by
  intro m
  induction m with
  | nil => simp [erasePending]
  | cons kv rest ih =>
    obtain ⟨k', v⟩ := kv
    by_cases h : k' = k
    · simp only [erasePending, if_pos h, List.length_cons]
      omega
    · simp only [erasePending, if_neg h, List.length_cons]
      omega

theorem erasePending_length_lt {k : Nat} {m : List (Nat × PendingRecord)} {v : PendingRecord}
    (h : lookupPending k m = some v) : (erasePending k m).length < m.length := by
  induction m with
  | nil => simp [lookupPending] at h
  | cons kv rest ih =>
    obtain ⟨k', v⟩ := kv
    by_cases hk : k' = k
    · simp only [erasePending, if_pos hk, List.length_cons]
      have := erasePending_length_le k rest
      omega
    · simp only [lookupPending, if_neg hk] at h
      simp only [erasePending, if_neg hk, List.length_cons]
      exact Nat.succ_lt_succ (ih h)

theorem string_ext {s t : String} (h : s.data = t.data) : s = t := by
  cases s
  cases t
  exact congrArg String.mk h

theorem string_append_empty (s : String) : s ++ "" = s :=
  string_ext (by rw [String.data_append]; exact List.append_nil _)

theorem string_empty_append (s : String) : "" ++ s = s :=
  string_ext (by rw [String.data_append]; rfl)

theorem commitSeq_append (a b : List (Nat × String × String)) :
    commitSeq (a ++ b) = commitSeq a ++ commitSeq b := by
  induction a with
  | nil => simp [commitSeq]
  | cons r rest ih =>
    obtain ⟨i, t, o⟩ := r
    simp only [List.cons_append, commitSeq, List.append_eq, ih, List.append_assoc]

theorem fileOf_append (a b : List (Nat × String × String)) :
    fileOf (a ++ b) = fileOf a ++ fileOf b := by
  induction a with
  | nil => simp only [List.nil_append, fileOf, string_empty_append]
  | cons r rest ih =>
    simp only [List.cons_append, fileOf, List.append_eq, ih, String.append_assoc]

/-- Recorder invariant: the whole observable state is determined by the
list of committed records, which carries consecutive indices from
`base_index`. -/
structure RInv (cfg : RecorderConfig) (f0 : Option Checkpoint) (s : RecState) : Prop where
  next_eq : s.next_expected_index = cfg.base_index + s.committed.length
  indices : s.committed.map Prod.fst = List.range' cfg.base_index s.committed.length
  trace_eq : s.trace = commitSeq s.committed
  file_eq : s.fileContent = fileOf s.committed
  ckpt_eq : s.checkpointFile = if s.committed.isEmpty then f0
      else some (cfg.checkpoint_template s.next_expected_index)

theorem initState_rinv (cfg : RecorderConfig) (f0 : Option Checkpoint) :
    RInv cfg f0 (initState cfg f0) := by
  refine ⟨?_, ?_, ?_, ?_, ?_⟩ <;> simp [initState, commitSeq, fileOf]

theorem commitReadyAux_rinv (cfg : RecorderConfig) (f0 : Option Checkpoint) :
    ∀ (fuel : Nat) (s : RecState), s.pending.length < fuel → RInv cfg f0 s →
      RInv cfg f0 (commitReadyAux cfg fuel s) ∧
      (commitReadyAux cfg fuel s).pending.length ≤ s.pending.length := by
  intro fuel
  induction fuel with
  | zero =>
    intro s hf
    omega
  | succ fuel ih =>
    intro s hf inv
    cases hlook : lookupPending s.next_expected_index s.pending with
    | none =>
      refine ⟨?_, ?_⟩ <;> simp only [commitReadyAux, hlook] <;> first | exact inv | omega
    | some rec =>
      have herase := erasePending_length_lt hlook
      have hinv1 : RInv cfg f0 (RecState.mk (s.next_expected_index + 1)
          (erasePending s.next_expected_index s.pending)
          (s.fileContent ++ chunkOf (s.next_expected_index, rec.target, rec.output))
          (some (cfg.checkpoint_template (s.next_expected_index + 1)))
          (s.trace ++
            (if trimIsEmpty rec.output then []
             else [RecEvent.wrote s.next_expected_index rec.target rec.output]) ++
            [RecEvent.checkpointWrite (s.next_expected_index + 1)])
          (s.committed ++ [(s.next_expected_index, rec.target, rec.output)])) := by
        have hnext := inv.next_eq
        refine ⟨?_, ?_, ?_, ?_, ?_⟩
        · show s.next_expected_index + 1 =
            cfg.base_index + (s.committed ++ [_]).length
          rw [List.length_append]
          simp only [List.length_singleton]
          omega
        · show (s.committed ++ [(s.next_expected_index, rec.target, rec.output)]).map
            Prod.fst = List.range' cfg.base_index
              (s.committed ++ [(s.next_expected_index, rec.target, rec.output)]).length
          rw [List.map_append, inv.indices, List.length_append]
          simp only [List.map_cons, List.map_nil, List.length_singleton,
            List.length_cons, List.length_nil]
          have h1 : List.range' cfg.base_index (s.committed.length + 1) =
              List.range' cfg.base_index s.committed.length ++
                [cfg.base_index + 1 * s.committed.length] :=
            List.range'_concat cfg.base_index s.committed.length
          rw [h1]
          congr 2
          omega
        · show s.trace ++ _ ++ _ = commitSeq (s.committed ++ [_])
          rw [commitSeq_append, inv.trace_eq]
          simp only [commitSeq, List.append_assoc, List.append_nil]
        · show s.fileContent ++ chunkOf (s.next_expected_index, rec.target, rec.output) =
            fileOf (s.committed ++ [(s.next_expected_index, rec.target, rec.output)])
          rw [fileOf_append, inv.file_eq]
          simp only [fileOf]
          rw [string_append_empty]
        · show some (cfg.checkpoint_template (s.next_expected_index + 1)) = _
          have : (s.committed ++ [(s.next_expected_index, rec.target, rec.output)]).isEmpty
              = false := by
            simp
          rw [this]
          simp
      have hrec := ih _ (by
        show (erasePending s.next_expected_index s.pending).length < fuel
        omega) hinv1
      refine ⟨?_, ?_⟩
      · show RInv cfg f0 (commitReadyAux cfg (fuel + 1) s)
        simp only [commitReadyAux, hlook]
        exact hrec.1
      · show (commitReadyAux cfg (fuel + 1) s).pending.length ≤ s.pending.length
        simp only [commitReadyAux, hlook]
        have := hrec.2
        simp only at this
        omega

end Recorder


namespace Recorder

theorem commitReady_rinv {cfg : RecorderConfig} {f0 : Option Checkpoint} {s : RecState}
    (inv : RInv cfg f0 s) : RInv cfg f0 (commitReady cfg s) :=
  (commitReadyAux_rinv cfg f0 (s.pending.length + 1) s (Nat.lt_succ_self _) inv).1

theorem handleRecord_rinv {cfg : RecorderConfig} {f0 : Option Checkpoint} {s : RecState}
    (inv : RInv cfg f0 s) (index : Nat) (target output : String) :
    RInv cfg f0 (handleRecord cfg s index target output) := by
  unfold handleRecord
  by_cases h : index < s.next_expected_index
  · rw [if_pos h]
    exact inv
  · rw [if_neg h]
    apply commitReady_rinv
    exact ⟨inv.next_eq, inv.indices, inv.trace_eq, inv.file_eq, inv.ckpt_eq⟩

theorem processMessages_rinv (cfg : RecorderConfig) (f0 : Option Checkpoint) :
    ∀ (msgs : List RecorderMessage) (s : RecState), RInv cfg f0 s →
      RInv cfg f0 (processMessages cfg msgs s) := by
  intro msgs
  induction msgs with
  | nil => intro s inv; exact inv
  | cons m rest ih =>
    intro s inv
    show RInv cfg f0 (processMessages cfg rest (processMessage cfg s m))
    apply ih
    cases m with
    | record i t o => exact handleRecord_rinv inv i t o
    | flush => exact inv

/-- The state `finish` operates on, after draining the channel. -/
theorem run_rinv (cfg : RecorderConfig) (f0 : Option Checkpoint)
    (msgs : List RecorderMessage) :
    RInv cfg f0 (commitReady cfg (processMessages cfg msgs (initState cfg f0))) :=
  commitReady_rinv (processMessages_rinv cfg f0 msgs _ (initState_rinv cfg f0))

theorem checkpointValues_commitSeq :
    ∀ l : List (Nat × String × String),
      checkpointValues (commitSeq l) = l.map (fun r => r.1 + 1) := by
  intro l
  induction l with
  | nil => simp [commitSeq, checkpointValues]
  | cons r rest ih =>
    obtain ⟨i, t, o⟩ := r
    by_cases h : trimIsEmpty o
    · simp only [commitSeq, if_pos h, List.nil_append, List.singleton_append,
        checkpointValues, List.filterMap_cons, List.map_cons]
      rw [← ih]
      rfl
    · simp only [commitSeq, if_neg h, List.singleton_append, List.cons_append,
        List.nil_append, checkpointValues, List.filterMap_cons, List.map_cons]
      rw [← ih]
      rfl

theorem committed_pairwise {l : List (Nat × String × String)} {base : Nat}
    (h : l.map Prod.fst = List.range' base l.length) :
    l.Pairwise (fun a b => a.1 < b.1) := by
  have h2 : List.Pairwise (fun a b => a < b) (l.map Prod.fst) := by
    rw [h]
    exact List.pairwise_lt_range' base l.length 1 (by omega)
  exact (List.pairwise_map).mp h2

theorem commitSeq_write_before_checkpoint :
    ∀ (l : List (Nat × String × String)), l.Pairwise (fun a b => a.1 < b.1) →
    ∀ (pre : List RecEvent) (v : Nat) (post : List RecEvent),
      commitSeq l = pre ++ RecEvent.checkpointWrite v :: post →
    ∀ i t o, (i, t, o) ∈ l → ¬ trimIsEmpty o → i < v →
      RecEvent.wrote i t o ∈ pre := by
  intro l
  induction l with
  | nil =>
    intro _ pre v post heq i t o hmem
    exact absurd hmem (List.not_mem_nil _)
  | cons r rest ih =>
    obtain ⟨j, tj, oj⟩ := r
    intro hpw pre v post heq i t o hmem hne hlt
    have hjlt : ∀ x ∈ rest, j < x.1 := fun x hx => (List.pairwise_cons.mp hpw).1 x hx
    have hpw' := (List.pairwise_cons.mp hpw).2
    by_cases hoj : trimIsEmpty oj
    · simp only [commitSeq, if_pos hoj, List.nil_append, List.singleton_append] at heq
      cases pre with
      | nil =>
        injection heq with hhead htail
        injection hhead with hv
        rcases List.mem_cons.mp hmem with hm | hm
        · exfalso
          have hoeq : o = oj := by
            have := congrArg (fun r => r.2.2) hm
            simpa using this
          rw [hoeq] at hne
          exact hne hoj
        · exfalso
          have := hjlt _ hm
          omega
      | cons e pre' =>
        injection heq with hhead htail
        rcases List.mem_cons.mp hmem with hm | hm
        · exfalso
          have hoeq : o = oj := by
            have := congrArg (fun r => r.2.2) hm
            simpa using this
          rw [hoeq] at hne
          exact hne hoj
        · exact List.mem_cons_of_mem _ (ih hpw' pre' v post htail i t o hm hne hlt)
    · simp only [commitSeq, if_neg hoj, List.singleton_append, List.cons_append,
        List.nil_append] at heq
      cases pre with
      | nil =>
        injection heq with hhead htail
        exact absurd hhead (by simp)
      | cons e pre' =>
        injection heq with hhead htail
        cases pre' with
        | nil =>
          injection htail with hhead2 htail2
          injection hhead2 with hv
          rcases List.mem_cons.mp hmem with hm | hm
          · have h1 : i = j := by
              have := congrArg (fun r => r.1) hm
              simpa using this
            have h2 : t = tj := by
              have := congrArg (fun r => r.2.1) hm
              simpa using this
            have h3 : o = oj := by
              have := congrArg (fun r => r.2.2) hm
              simpa using this
            rw [← hhead, h1, h2, h3]
            exact List.mem_singleton.mpr rfl
          · have := hjlt _ hm
            omega
        | cons e2 pre2 =>
          injection htail with hhead2 htail2
          rcases List.mem_cons.mp hmem with hm | hm
          · have h1 : i = j := by
              have := congrArg (fun r => r.1) hm
              simpa using this
            have h2 : t = tj := by
              have := congrArg (fun r => r.2.1) hm
              simpa using this
            have h3 : o = oj := by
              have := congrArg (fun r => r.2.2) hm
              simpa using this
            rw [← hhead, h1, h2, h3]
            exact List.mem_cons_self _ _
          · exact List.mem_cons_of_mem _ (List.mem_cons_of_mem _
              (ih hpw' pre2 v post htail2 i t o hm hne hlt))

end Recorder


namespace Recorder

theorem run_state_facts (cfg : RecorderConfig) (f0 : Option Checkpoint)
    (msgs : List RecorderMessage) :
    (run cfg f0 msgs).state.trace = commitSeq (run cfg f0 msgs).state.committed ∧
    (run cfg f0 msgs).state.committed.map Prod.fst =
      List.range' cfg.base_index (run cfg f0 msgs).state.committed.length ∧
    (run cfg f0 msgs).state.fileContent = fileOf (run cfg f0 msgs).state.committed ∧
    (run cfg f0 msgs).state.next_expected_index =
      cfg.base_index + (run cfg f0 msgs).state.committed.length := by
  have hinv := run_rinv cfg f0 msgs
  show _ ∧ _ ∧ _ ∧ _
  simp only [run, finish]
  by_cases h : cfg.base_index + cfg.total_targets ≤
      (commitReady cfg (processMessages cfg msgs (initState cfg f0))).next_expected_index
  · rw [if_pos h]
    exact ⟨hinv.trace_eq, hinv.indices, hinv.file_eq, hinv.next_eq⟩
  · rw [if_neg h]
    exact ⟨hinv.trace_eq, hinv.indices, hinv.file_eq, hinv.next_eq⟩

/-- **C2** (confirmed). Over any recorder run (any message stream, in any
order, duplicates and gaps included): the sequence of `next_index` values
written to the checkpoint file is non-decreasing, and whenever the
checkpoint file is rewritten with value `v`, the output-stream write of
every committed non-empty finding with index below `v` has already
happened — the checkpoint never advances past an unwritten finding. -/
theorem c2_recorder_monotonic (cfg : RecorderConfig) (f0 : Option Checkpoint)
    (msgs : List RecorderMessage) :
    List.Chain' (fun a b => a ≤ b)
      (checkpointValues (run cfg f0 msgs).state.trace) ∧
    (∀ (pre : List RecEvent) (v : Nat) (post : List RecEvent),
      (run cfg f0 msgs).state.trace = pre ++ RecEvent.checkpointWrite v :: post →
      ∀ i t o, (i, t, o) ∈ (run cfg f0 msgs).state.committed →
        ¬ trimIsEmpty o → i < v → RecEvent.wrote i t o ∈ pre) := by
  obtain ⟨htr, hidx, _, _⟩ := run_state_facts cfg f0 msgs
  constructor
  · rw [htr, checkpointValues_commitSeq]
    have hpw := committed_pairwise hidx
    have hle : List.Pairwise (fun a b => a ≤ b)
        ((run cfg f0 msgs).state.committed.map (fun r => r.1 + 1)) := by
      rw [List.pairwise_map]
      exact hpw.imp (fun h => by omega)
    exact hle.chain'
  · intro pre v post heq i t o hmem hne hlt
    rw [htr] at heq
    exact commitSeq_write_before_checkpoint _ (committed_pairwise hidx)
      pre v post heq i t o hmem hne hlt

/-- Witness for C2 at a concrete run: two records (one finding, one empty);
the finding's write precedes the checkpoint advance to 1. -/
theorem c2_recorder_monotonic_witness :
    RecEvent.wrote 0 "a" "hit" ∈ [RecEvent.wrote 0 "a" "hit"] :=
  (c2_recorder_monotonic (RecorderConfig.mk "o" "c" "t" "m" 0 2) none
      [RecorderMessage.record 0 "a" "hit", RecorderMessage.record 1 "b" ""]).2
    [RecEvent.wrote 0 "a" "hit"] 1 [RecEvent.checkpointWrite 2] rfl 0 "a" "hit"
    (by decide) (by decide) (by decide)

/-- **C4** (confirmed). Over any recorder run, the output file consists
exactly of the committed records' non-empty findings as
`"<target>\t<output>\n"` lines in commit order (whitespace-only outputs
contribute nothing), while `next_expected_index` advances by one for every
committed record — empty or not — and the checkpoint file is rewritten
with the advanced index at every commit. -/
theorem c4_empty_findings (cfg : RecorderConfig) (f0 : Option Checkpoint)
    (msgs : List RecorderMessage) :
    (run cfg f0 msgs).state.fileContent = fileOf (run cfg f0 msgs).state.committed ∧
    (run cfg f0 msgs).state.next_expected_index =
      cfg.base_index + (run cfg f0 msgs).state.committed.length ∧
    checkpointValues (run cfg f0 msgs).state.trace =
      (run cfg f0 msgs).state.committed.map (fun r => r.1 + 1) := by
  obtain ⟨htr, _, hfile, hnext⟩ := run_state_facts cfg f0 msgs
  refine ⟨hfile, hnext, ?_⟩
  rw [htr, checkpointValues_commitSeq]

/-- **C6** (confirmed). On channel close the recorder drains the remaining
ready entries and deletes the checkpoint file exactly when
`next_expected_index ≥ base_index + total_targets`; after a full
successful scan (all `total_targets` indices committed) the checkpoint
file is gone, and after an aborted run it keeps its last written value (or
the pre-existing file when nothing was committed). -/
theorem c6_checkpoint_removal (cfg : RecorderConfig) (f0 : Option Checkpoint)
    (msgs : List RecorderMessage) :
    ((run cfg f0 msgs).removedCheckpoint = true ↔
      cfg.base_index + cfg.total_targets ≤
        (run cfg f0 msgs).state.next_expected_index) ∧
    (run cfg f0 msgs).state.checkpointFile =
      (if cfg.base_index + cfg.total_targets ≤
          (run cfg f0 msgs).state.next_expected_index
       then none
       else if (run cfg f0 msgs).state.committed.isEmpty then f0
       else some (cfg.checkpoint_template
         (run cfg f0 msgs).state.next_expected_index)) ∧
    (run cfg f0 msgs).state.next_expected_index =
      cfg.base_index + (run cfg f0 msgs).state.committed.length := by
  have hinv := run_rinv cfg f0 msgs
  show _ ∧ _ ∧ _
  simp only [run, finish]
  by_cases h : cfg.base_index + cfg.total_targets ≤
      (commitReady cfg (processMessages cfg msgs (initState cfg f0))).next_expected_index
  · rw [if_pos h]
    refine ⟨by simpa using h, ?_, hinv.next_eq⟩
    show (none : Option Checkpoint) = _
    rw [if_pos h]
  · rw [if_neg h]
    refine ⟨by simpa using h, ?_, hinv.next_eq⟩
    show (commitReady cfg (processMessages cfg msgs (initState cfg f0))).checkpointFile = _
    rw [if_neg h]
    exact hinv.ckpt_eq

end Recorder


/-! ## Probe error type — `ProtocolError` at the interface the probes use -/

/-- The HTTP engine's error kinds as consumed by the probes (the spec fixes
the external `ProtocolError` interface: at least `Timeout`,
`InvalidTarget`, `MalformedHeaders` and a generic transport error). -/
inductive ProtocolError where
  | timeout
  | invalidTarget (msg : String)
  | malformedHeaders (msg : String)
  | transport (msg : String)
deriving DecidableEq, Repr

/-- Model of `Vec::join("\n")` for findings. -/
def joinLines : List String → String
  | [] => ""
  | [x] => x
  | x :: rest => x ++ "\n" ++ joinLines rest

/-! ## TrailMerge probe — `src/modules/trailmerge/mod.rs` -/

namespace TrailMerge

/-- Protocol tags (`HttpProtocol` from the engine interface). -/
inductive HttpProtocol where
  | http1
  | http2
  | h2c
  | http3
deriving DecidableEq, Repr

/-- Modelled from the spec: the external engine's `Display` for
`HttpProtocol` is out of scope of this repository; scenario S4 of the spec
shows `H1` rendering as `HTTP/1.1`. -/
def protocolDisplay : HttpProtocol → String
  | .http1 => "HTTP/1.1"
  | .http2 => "HTTP/2"
  | .h2c => "H2C"
  | .http3 => "HTTP/3"

/-- A protocol detector result (`DetectedProtocol`). -/
structure DetectedProtocol where
  protocol : HttpProtocol
  port : Option Nat
deriving DecidableEq, Repr

/-- Rust `Debug` for `Option<u16>`, as the probe's
`format!("… {:?}", detected.port)` renders the port field. -/
def portDebug : Option Nat → String
  | none => "None"
  | some p => "Some(" ++ String.mk (natToDecimal p) ++ ")"

/-- Model of `TrailMergeTask::interpret_status`: status 100 yields the
expect finding and 504 the gateway-timeout finding — each formatted as
`"… {} {} {:?}"` with protocol, target and debug-formatted port — and any
other status yields no finding (the 502/503 arms are commented out in the
source). -/
def interpret_status (detected : DetectedProtocol) (status : Nat)
    (target : String) : Option String :=
  if status = 100 then
    some ("[!+] got expect! " ++ protocolDisplay detected.protocol ++ " " ++
      target ++ " " ++ portDebug detected.port)
  else if status = 504 then
    some ("[+] gateway timeout! " ++ protocolDisplay detected.protocol ++ " " ++
      target ++ " " ++ portDebug detected.port)
  else none

/-- Model of `TrailMergeTask::scan_protocol`, the three network exchanges
replaced by oracle outcomes (status of the baseline test request, of the
expect request, and of the attack request).  Control flow as in the
source: a baseline timeout yields `Ok(None)` and other baseline errors
propagate; an expect answer of 100 short-circuits with the expect finding
while expect errors are swallowed; the attack send's error propagates via
`?` and its status is interpreted. -/
def scan_protocol (target : String) (detected : DetectedProtocol)
    (testRes expectRes attackRes : Except ProtocolError Nat) :
    Except ProtocolError (Option String) :=
  match testRes with
  | .error .timeout => .ok none
  | .error e => .error e
  | .ok testStatus =>
    if (interpret_status detected testStatus target).isSome then .ok none
    else
      match expectRes with
      | .ok 100 => .ok (some ("[!+] got expect! " ++
          protocolDisplay detected.protocol ++ " " ++ target ++ " " ++
          portDebug detected.port))
      | _ =>
        match attackRes with
        | .error e => .error e
        | .ok attackStatus => .ok (interpret_status detected attackStatus target)

/-- The body of `TrailMergeTask::execute`'s per-protocol loop: findings
accumulate; a per-protocol timeout appends a `"[!] timeout …"` line;
`InvalidTarget` aborts; other errors are swallowed (printed only in
verbose mode). -/
def executeLoop (target : String) :
    List (DetectedProtocol × Except ProtocolError Nat × Except ProtocolError Nat ×
      Except ProtocolError Nat) → List String → Except ProtocolError String
  | [], findings => .ok (joinLines findings)
  | (d, tr, er, ar) :: rest, findings =>
    match scan_protocol target d tr er ar with
    | .ok (some message) => executeLoop target rest (findings ++ [message])
    | .ok none => executeLoop target rest findings
    | .error .timeout => executeLoop target rest
        (findings ++ ["[!] timeout " ++ protocolDisplay d.protocol ++ " " ++ target])
    | .error (.invalidTarget msg) => .error (.invalidTarget msg)
    | .error _ => executeLoop target rest findings

/-- Model of `TrailMergeTask::execute`, with the protocol detector's
outcome — and, per detected protocol, the three response outcomes — as
oracle input. -/
def execute (target : String)
    (detect : Except ProtocolError (List (DetectedProtocol ×
      Except ProtocolError Nat × Except ProtocolError Nat ×
      Except ProtocolError Nat))) : Except ProtocolError String :=
  match detect with
  | .error e => .error e
  | .ok protocols => executeLoop target protocols []

end TrailMerge


/-- Counterexample to C8 as stated: on status 504 the probe's finding is
NOT `"[+] gateway timeout! <proto> <target>"` — the source formats a third
argument, the debug-printed port (`{:?}`), so the scenario's output ends
in `" None"`. -/
theorem c8_counterexample :
    TrailMerge.interpret_status ⟨.http1, none⟩ 504 "http://example" ≠
      some "[+] gateway timeout! HTTP/1.1 http://example" := by decide

/-- **C8** (corrected). `interpret_status` yields a finding exactly for
statuses 100 and 504 (not only 504: status 100 yields the
`"[!+] got expect! …"` finding), the 504 finding is
`"[+] gateway timeout! <proto> <target> <Debug(port)>"`, and in scenario
S4 (detector `[{H1, None}]`, baseline 200, expect 200, attack 504) the
probe's output is `"[+] gateway timeout! HTTP/1.1 http://example None"`. -/
theorem c8_trailmerge_504 :
    (∀ (d : TrailMerge.DetectedProtocol) (st : Nat) (t : String),
      (TrailMerge.interpret_status d st t).isSome = true ↔ (st = 100 ∨ st = 504)) ∧
    (∀ (d : TrailMerge.DetectedProtocol) (t : String),
      TrailMerge.interpret_status d 504 t =
        some ("[+] gateway timeout! " ++ TrailMerge.protocolDisplay d.protocol ++
          " " ++ t ++ " " ++ TrailMerge.portDebug d.port)) ∧
    TrailMerge.scan_protocol "http://example" ⟨.http1, none⟩ (.ok 200) (.ok 200)
      (.ok 504) = .ok (some "[+] gateway timeout! HTTP/1.1 http://example None") ∧
    TrailMerge.execute "http://example"
      (.ok [(⟨.http1, none⟩, .ok 200, .ok 200, .ok 504)]) =
      .ok "[+] gateway timeout! HTTP/1.1 http://example None" := by
  refine ⟨?_, ?_, rfl, rfl⟩
  · intro d st t
    unfold TrailMerge.interpret_status
    by_cases h100 : st = 100
    · simp [h100]
    · by_cases h504 : st = 504
      · simp [h504]
      · simp [h100, h504]
  · intro d t
    unfold TrailMerge.interpret_status
    simp

/-! ## TrailSmug probe — `src/modules/trailsmug/mod.rs` -/

namespace TrailSmug

/-- The baseline skip list of `TrailSmugTask::execute`: statuses for which
the target is considered uninteresting or already broken. -/
def skipStatuses : List Nat :=
  [301, 302, 307, 308, 400, 403, 404, 408, 429, 502, 503, 504]

/-- The recheck ignore list: status changes attributed to rate limiting or
proxy flakiness rather than smuggling. -/
def ignoreStatuses : List Nat := [403, 409, 420, 429, 502, 503]

/-- Oracle for one target's network interactions: the outcome of
`build_attack_requests` (`Err` for an unparsable target, swallowed to an
empty finding), of `build_baseline_request` (propagated via `?`), of the
initial baseline send, and — per (payload index, iteration) — of the raw
payload send and of the follow-up baseline request. -/
structure Oracle where
  attacks : Except ProtocolError (List String)
  buildBaseline : Except ProtocolError Unit
  baseline : Except ProtocolError Nat
  raw : Nat → Nat → Except ProtocolError Unit
  recheck : Nat → Nat → Except ProtocolError Nat

/-- The double-probe confirmation loop over the attack payloads
(`for req in &attacks { … for i in 0..probes { … } }` with `probes = 2`).
Per payload: send the raw payload (`?` propagates its error), re-send the
baseline (build errors propagate; send errors return the findings
accumulated so far); a status differing from the baseline and outside the
ignore list sets `diff` on iteration 0 and, when confirmed on iteration 1,
emits the difference finding; otherwise the inner loop breaks early. -/
def payloadLoop (o : Oracle) (base : Nat) (target : String) :
    List String → Nat → List String → Except ProtocolError String
  | [], _, findings => .ok (joinLines findings)
  | req :: rest, p, findings =>
    match o.raw p 0 with
    | .error e => .error e
    | .ok _ =>
      match o.buildBaseline with
      | .error e => .error e
      | .ok _ =>
        match o.recheck p 0 with
        | .error _ => .ok (joinLines findings)
        | .ok st0 =>
          if st0 ≠ base ∧ st0 ∉ ignoreStatuses then
            match o.raw p 1 with
            | .error e => .error e
            | .ok _ =>
              match o.buildBaseline with
              | .error e => .error e
              | .ok _ =>
                match o.recheck p 1 with
                | .error _ => .ok (joinLines findings)
                | .ok st1 =>
                  if st1 ≠ base ∧ st1 ∉ ignoreStatuses then
                    payloadLoop o base target rest (p + 1) (findings ++
                      ["[!] " ++ target ++ " resp difference: baseline " ++
                        String.mk (natToDecimal base) ++ " curr " ++
                        String.mk (natToDecimal st1) ++ " payload " ++ req])
                  else
                    payloadLoop o base target rest (p + 1) findings
          else
            payloadLoop o base target rest (p + 1) findings

/-- Model of `TrailSmugTask::execute`: a failing `build_attack_requests`
or a failing baseline send yield an empty finding; a baseline status in
the skip list yields an empty finding; otherwise the double-probe loop
runs over the payloads.  A `build_baseline_request` failure propagates via
`?`. -/
def execute (target : String) (o : Oracle) : Except ProtocolError String :=
  match o.attacks with
  | .error _ => .ok ""
  | .ok attacks =>
    match o.buildBaseline with
    | .error e => .error e
    | .ok _ =>
      match o.baseline with
      | .error _ => .ok ""
      | .ok base =>
        if base ∈ skipStatuses then .ok ""
        else payloadLoop o base target attacks 0 []

end TrailSmug


/-- Counterexample to C9 as stated: an error on the raw payload send is
propagated out of `execute` by `?` (here a `Timeout`), rather than
returning the findings accumulated so far — so errors other than
`InvalidTarget` do propagate upward. -/
theorem c9_counterexample :
    TrailSmug.execute "http://example"
      (TrailSmug.Oracle.mk (.ok ["PAYLOAD"]) (.ok ()) (.ok 200)
        (fun _ _ => .error .timeout) (fun _ _ => .ok 200)) =
      .error ProtocolError.timeout := rfl

/-- **C9** (corrected). In TrailSmug's attack loop only an error on the
follow-up baseline request makes `execute` return `Ok` with the findings
accumulated so far; an error on the raw payload send (`send_raw`) is
propagated via `?` whatever its kind, and any findings accumulated before
it are lost.  (The `InvalidTarget` from parsing the target in
`build_attack_requests` is itself swallowed into an empty finding.) -/
theorem c9_trailsmug_errors (target req : String) (rest : List String) (base : Nat)
    (o : TrailSmug.Oracle) (e : ProtocolError)
    (ha : o.attacks = .ok (req :: rest)) (hb : o.buildBaseline = .ok ())
    (hbase : o.baseline = .ok base) (hskip : base ∉ TrailSmug.skipStatuses) :
    (o.raw 0 0 = .error e → TrailSmug.execute target o = .error e) ∧
    (o.raw 0 0 = .ok () → o.recheck 0 0 = .error e →
      TrailSmug.execute target o = .ok "") ∧
    (∀ (o2 : TrailSmug.Oracle) (msg : String),
      o2.attacks = .error (.invalidTarget msg) →
      TrailSmug.execute target o2 = .ok "") ∧
    TrailSmug.execute "t"
      (TrailSmug.Oracle.mk (.ok ["P1", "P2"]) (.ok ()) (.ok 200)
        (fun _ _ => .ok ())
        (fun p _ => if p = 1 then .error .timeout else .ok 500)) =
      .ok "[!] t resp difference: baseline 200 curr 500 payload P1" := by
  refine ⟨?_, ?_, ?_, rfl⟩
  · intro hraw
    simp only [TrailSmug.execute, ha, hb, hbase, if_neg hskip]
    simp only [TrailSmug.payloadLoop, hraw]
  · intro hraw hre
    simp only [TrailSmug.execute, ha, hb, hbase, if_neg hskip]
    simp only [TrailSmug.payloadLoop, hraw, hb, hre]
    rfl
  · intro o2 msg hmsg
    simp only [TrailSmug.execute, hmsg]

/-- Witness for C9: a concrete run where the follow-up baseline request
fails with a transport error and `execute` returns `Ok` with the (empty)
accumulated findings. -/
theorem c9_trailsmug_errors_witness :
    TrailSmug.execute "w"
      (TrailSmug.Oracle.mk (.ok ["Q"]) (.ok ()) (.ok 200)
        (fun _ _ => .ok ()) (fun _ _ => .error (.transport "refused"))) = .ok "" :=
  ((c9_trailsmug_errors "w" "Q" [] 200
      (TrailSmug.Oracle.mk (.ok ["Q"]) (.ok ()) (.ok 200)
        (fun _ _ => .ok ()) (fun _ _ => .error (.transport "refused")))
      (.transport "refused") rfl rfl rfl (by decide)).2.1) rfl rfl

end RipHttp
